import Mathlib

/-!
Verification of the transaction-pool specification of this repository.

The repository sources available here are the end-to-end txpool tests
(`e2e/txpool_test.go`) and the bridge wiring (`bridge/bridge.go`).  The
transaction-pool implementation itself is not among the sources, so the pool
is modelled from the specification (spec.md sections 3, 4, 6, 7): the data
model, `Add`, `Pop`, `MarkIncluded`, `Demote`, `GetByHash` and
`PendingNonce`.  The bridge is embedded directly from `bridge/bridge.go`.
-/

namespace TxPool

/-- Modelled from the spec: a transaction (spec section 3) with sender
address, nonce, gas price, gas limit, value and a signature-validity bit
standing for the signature components.  Addresses, hashes and values are
modelled as naturals. -/
structure Transaction where
  sender : Nat
  nonce : Nat
  gasPrice : Nat
  gas : Nat
  value : Nat
  sigOk : Bool
deriving DecidableEq, Repr

/-- Modelled from the spec: the content-derived hash used as a transaction's
identity everywhere in the system (spec section 3).  An injective pairing of
all content fields. -/
def Transaction.hash (tx : Transaction) : Nat :=
  Nat.pair tx.sender
    (Nat.pair tx.nonce
      (Nat.pair tx.gasPrice
        (Nat.pair tx.gas
          (Nat.pair tx.value (cond tx.sigOk 1 0)))))

/-- Modelled from the spec: the status flag of a pool entry (spec section 3):
queued, executable or selected. -/
inductive TxStatus
  | queued
  | executable
  | selected
deriving DecidableEq, Repr

/-- Modelled from the spec: a PoolEntry wraps a Transaction with an insertion
sequence number (deterministic tie-breaking) and a status flag. -/
structure PoolEntry where
  tx : Transaction
  seq : Nat
  status : TxStatus
deriving DecidableEq, Repr

/-- Modelled from the spec: per-sender account state: the next expected
(confirmed) nonce and the ordered queue of not-yet-included entries, kept
sorted by strictly increasing nonce. -/
structure AccountState where
  nextNonce : Nat
  queue : List PoolEntry
deriving DecidableEq, Repr

/-- Modelled from the spec: record kept for an included transaction so that
GetByHash can report block number, block hash and transaction index after
MarkIncluded attached the block metadata (spec section 6). -/
structure IncludedRecord where
  tx : Transaction
  blockNumber : Nat
  blockHash : Nat
  txIndex : Nat
deriving DecidableEq, Repr

/-- Modelled from the spec: the Pool orchestrator owning all account queues
(an association list keyed by sender), the global insertion sequence counter
and the records of included transactions. -/
structure Pool where
  accounts : List (Nat × AccountState)
  seqCounter : Nat
  included : List IncludedRecord
deriving DecidableEq, Repr

/-- The empty pool. -/
def emptyPool : Pool := ⟨[], 0, []⟩

/-- Lookup of an account state in the association list. -/
def lookupAccount : List (Nat × AccountState) → Nat → Option AccountState
  | [], _ => none
  | (b, st) :: rest, a => if b = a then some st else lookupAccount rest a

/-- The state of an account, defaulting to a fresh account. -/
def getAccount (p : Pool) (a : Nat) : AccountState :=
  match lookupAccount p.accounts a with
  | some st => st
  | none => ⟨0, []⟩

/-- Replace (or append) the state bound to a key in the association list. -/
def updateAssoc : List (Nat × AccountState) → Nat → AccountState →
    List (Nat × AccountState)
  | [], a, st => [(a, st)]
  | (b, s) :: rest, a, st =>
    if b = a then (a, st) :: rest else (b, s) :: updateAssoc rest a st

/-- Modelled from the spec: one past the highest contiguous nonce present,
starting from the confirmed nonce (spec section 4.4, PendingNonce). -/
def frontierFrom (next : Nat) : List Nat → Nat
  | [] => next
  | n :: ns => if n = next then frontierFrom (next + 1) ns else frontierFrom next ns

/-- Modelled from the spec: recompute the status flag of one entry given the
contiguous frontier: selected entries are untouched; an entry is executable
exactly when its nonce lies below the frontier, queued otherwise. -/
def recomputeStatus (fr : Nat) (e : PoolEntry) : PoolEntry :=
  if e.status = TxStatus.selected then e
  else { e with status :=
    if e.tx.nonce < fr then TxStatus.executable else TxStatus.queued }

/-- Modelled from the spec: promotion (spec glossary): re-evaluate which
entries of an account are executable after its queue or confirmed nonce
changed. -/
def promoteAccount (st : AccountState) : AccountState :=
  let fr := frontierFrom st.nextNonce (st.queue.map (fun e => e.tx.nonce))
  { st with queue := st.queue.map (recomputeStatus fr) }

/-- Modelled from the spec: the error taxonomy of section 7. -/
inductive AddError
  | rejectedInvalidSignature
  | rejectedMalformed
  | rejectedNonceTooLow
  | rejectedUnderpriced
  | rejectedPoolFull
  | deferredInsufficientBudget
  | internalInconsistency
deriving DecidableEq, Repr

/-- Whether some pending entry of the pool carries the given hash. -/
def containsHash (p : Pool) (h : Nat) : Bool :=
  p.accounts.any (fun as => as.2.queue.any (fun e => e.tx.hash == h))

/-- Swap the entry at the given nonce for its replacement. -/
def replaceAt (n : Nat) (newE : PoolEntry) (e : PoolEntry) : PoolEntry :=
  if e.tx.nonce = n then newE else e

/-- Insert an entry into a nonce-sorted queue, keeping it sorted. -/
def insertByNonce (e : PoolEntry) : List PoolEntry → List PoolEntry
  | [] => [e]
  | e' :: rest =>
    if e.tx.nonce < e'.tx.nonce then e :: e' :: rest
    else e' :: insertByNonce e rest

/-- Modelled from the spec: Add (spec section 4.4): validate, then insert into
the sender's account queue enforcing nonce uniqueness and the replace-by-fee
rule; idempotent no-op success on a duplicate hash; promotion of the account
afterwards. -/
def Pool.add (p : Pool) (tx : Transaction) : Except AddError Nat × Pool :=
  if containsHash p tx.hash then (Except.ok tx.hash, p)
  else if ¬ tx.sigOk then (Except.error AddError.rejectedInvalidSignature, p)
  else if tx.nonce < (getAccount p tx.sender).nextNonce then
    (Except.error AddError.rejectedNonceTooLow, p)
  else
    match (getAccount p tx.sender).queue.find? (fun e => e.tx.nonce == tx.nonce) with
    | some e =>
      if e.tx.gasPrice < tx.gasPrice then
        (Except.ok tx.hash,
          { p with
            accounts := (updateAssoc p.accounts tx.sender
              (promoteAccount { (getAccount p tx.sender) with
                queue := ((getAccount p tx.sender).queue.map
                  (replaceAt tx.nonce ⟨tx, p.seqCounter, TxStatus.queued⟩)) })),
            seqCounter := p.seqCounter + 1 })
      else (Except.error AddError.rejectedUnderpriced, p)
    | none =>
      (Except.ok tx.hash,
        { p with
          accounts := (updateAssoc p.accounts tx.sender
            (promoteAccount { (getAccount p tx.sender) with
              queue := (insertByNonce ⟨tx, p.seqCounter, TxStatus.queued⟩
                (getAccount p tx.sender).queue) })),
          seqCounter := p.seqCounter + 1 })

/-- Modelled from the spec: the executable head of an account: its
lowest-nonce entry currently marked executable (the queue is nonce-sorted,
so the first match is the lowest). -/
def headEntry (st : AccountState) : Option PoolEntry :=
  st.queue.find? (fun e => e.status == TxStatus.executable)

/-- Modelled from the spec: the PromotionIndex ordering (spec section 4.3):
effective gas price descending, then insertion sequence ascending. -/
def betterHead (x y : PoolEntry) : Bool :=
  decide (y.tx.gasPrice < x.tx.gasPrice ∨
    (x.tx.gasPrice = y.tx.gasPrice ∧ x.seq < y.seq))

/-- The best executable head among the accounts not blocked this round. -/
def bestHeadAux : List (Nat × AccountState) → List Nat → Option (Nat × PoolEntry)
  | [], _ => none
  | (a, st) :: rest, blocked =>
    if a ∈ blocked then bestHeadAux rest blocked
    else
      match headEntry st with
      | none => bestHeadAux rest blocked
      | some e =>
        match bestHeadAux rest blocked with
        | none => some (a, e)
        | some (b, e') => if betterHead e e' then some (a, e) else some (b, e')

/-- The best executable head of the pool outside the blocked accounts. -/
def bestHead (p : Pool) (blocked : List Nat) : Option (Nat × PoolEntry) :=
  bestHeadAux p.accounts blocked

/-- Flip the entry at the given nonce to selected, leaving others alone. -/
def markEntry (n : Nat) (e : PoolEntry) : PoolEntry :=
  if e.tx.nonce = n then { e with status := TxStatus.selected } else e

/-- Mark the entry of the given account holding the given nonce selected. -/
def markSelectedAt (p : Pool) (a n : Nat) : Pool :=
  let st := getAccount p a
  let st' := { st with queue := st.queue.map (markEntry n) }
  { p with accounts := updateAssoc p.accounts a st' }

/-- Modelled from the spec: the greedy selection loop of Pop (spec section
4.4): repeatedly take the best remaining executable head; if its gas fits the
remaining budget select it (mark it selected) and continue with the reduced
budget, otherwise skip it without removing or demoting it, blocking its
account for the rest of the round. -/
def popLoop : Nat → Pool → List Nat → Nat → List Transaction × Pool
  | 0, p, _, _ => ([], p)
  | fuel + 1, p, blocked, budget =>
    match bestHead p blocked with
    | none => ([], p)
    | some (a, e) =>
      if e.tx.gas ≤ budget then
        let p' := markSelectedAt p a e.tx.nonce
        let res := popLoop fuel p' blocked (budget - e.tx.gas)
        (e.tx :: res.1, res.2)
      else popLoop fuel p (a :: blocked) budget

/-- Number of pending entries in the pool. -/
def poolSize (p : Pool) : Nat :=
  (p.accounts.map (fun as => as.2.queue.length)).sum

/-- Modelled from the spec: Pop(maxGas) (spec section 4.4), the block-packing
algorithm, with enough fuel for every selection and every blocked account. -/
def Pool.pop (p : Pool) (maxGas : Nat) : List Transaction × Pool :=
  popLoop (poolSize p + p.accounts.length) p [] maxGas

/-- Block metadata attached when a transaction is included. -/
structure BlockMeta where
  blockNumber : Nat
  blockHash : Nat
  txIndex : Nat
deriving DecidableEq, Repr

/-- Find the account and entry holding a given hash. -/
def findByHash : List (Nat × AccountState) → Nat → Option (Nat × PoolEntry)
  | [], _ => none
  | (a, st) :: rest, h =>
    match st.queue.find? (fun e => e.tx.hash == h) with
    | some e => some (a, e)
    | none => findByHash rest h

/-- Modelled from the spec: inclusion of one transaction (spec section 4.4,
MarkIncluded): permanently remove the entry, advance the account's
confirmed-nonce pointer, promote newly unblocked entries, and record the
block metadata for later lookups. -/
def markIncludedOne (p : Pool) (h : Nat) (m : BlockMeta) : Pool :=
  match findByHash p.accounts h with
  | none => p
  | some (a, e) =>
    let st := getAccount p a
    let st' := promoteAccount
      { nextNonce := max st.nextNonce (e.tx.nonce + 1),
        queue := st.queue.filter (fun e' => ¬ e'.tx.hash = h) }
    { p with accounts := updateAssoc p.accounts a st',
             included := ⟨e.tx, m.blockNumber, m.blockHash, m.txIndex⟩ :: p.included }

/-- Modelled from the spec: MarkIncluded over a list of hashes with their
block metadata. -/
def Pool.markIncluded (p : Pool) (hs : List (Nat × BlockMeta)) : Pool :=
  hs.foldl (fun p' hm => markIncludedOne p' hm.1 hm.2) p

/-- Reset one named selected entry back to executable or queued according to
the contiguous frontier, leaving every other entry and every data field
alone. -/
def demoteEntry (hs : List Nat) (fr : Nat) (e : PoolEntry) : PoolEntry :=
  if e.tx.hash ∈ hs ∧ e.status = TxStatus.selected then
    { e with status :=
      if e.tx.nonce < fr then TxStatus.executable else TxStatus.queued }
  else e

/-- Demotion applied to one account's queue. -/
def demoteAccount (hs : List Nat) (st : AccountState) : AccountState :=
  let fr := frontierFrom st.nextNonce (st.queue.map (fun e => e.tx.nonce))
  { st with queue := st.queue.map (demoteEntry hs fr) }

/-- Modelled from the spec: Demote (spec section 4.4): reset the named
selected entries back to executable or queued according to the contiguous
frontier, preserving every data field; nothing else changes. -/
def Pool.demote (p : Pool) (hs : List Nat) : Pool :=
  { p with accounts := p.accounts.map (fun as => (as.1, demoteAccount hs as.2)) }

/-- Result of a GetByHash lookup: the transaction with its block position
fields, zero while the transaction is still pending (spec section 6). -/
structure TxQueryResult where
  tx : Transaction
  blockNumber : Nat
  blockHash : Nat
  txIndex : Nat
deriving DecidableEq, Repr

/-- Modelled from the spec: GetByHash (spec sections 4.4 and 6): a pending
entry is reported with zero block number, block hash and transaction index;
an included transaction is reported with the recorded metadata. -/
def Pool.getByHash (p : Pool) (h : Nat) : Option TxQueryResult :=
  match findByHash p.accounts h with
  | some x => some ⟨x.2.tx, 0, 0, 0⟩
  | none =>
    match p.included.find? (fun r => r.tx.hash == h) with
    | some r => some ⟨r.tx, r.blockNumber, r.blockHash, r.txIndex⟩
    | none => none

/-- Modelled from the spec: PendingNonce (spec section 4.4). -/
def Pool.pendingNonce (p : Pool) (a : Nat) : Nat :=
  let st := getAccount p a
  frontierFrom st.nextNonce (st.queue.map (fun e => e.tx.nonce))

/-- Well-formedness of one account's state under its key: the queue is
strictly sorted by nonce and every entry's sender is the key. -/
def accountWF (a : Nat) (st : AccountState) : Prop :=
  st.queue.Pairwise (fun e₁ e₂ => e₁.tx.nonce < e₂.tx.nonce) ∧
  ∀ e ∈ st.queue, e.tx.sender = a

instance (a : Nat) (st : AccountState) : Decidable (accountWF a st) := by
  unfold accountWF; infer_instance

/-- Well-formedness of the pool: account keys are distinct and every account
state is well formed under its key. -/
def Pool.WF (p : Pool) : Prop :=
  (p.accounts.map Prod.fst).Nodup ∧ ∀ as ∈ p.accounts, accountWF as.1 as.2

instance (p : Pool) : Decidable p.WF := by
  unfold Pool.WF; infer_instance

/-- Status consistency of one account: every non-selected entry is marked
executable exactly when its nonce lies below the contiguous frontier. -/
def accountConsistent (st : AccountState) : Prop :=
  ∀ e ∈ st.queue, e.status ≠ TxStatus.selected →
    (e.status = TxStatus.executable ↔
      e.tx.nonce < frontierFrom st.nextNonce (st.queue.map (fun e' => e'.tx.nonce)))

instance (st : AccountState) : Decidable (accountConsistent st) := by
  unfold accountConsistent; infer_instance

/-- Status consistency of the pool. -/
def Pool.Consistent (p : Pool) : Prop :=
  ∀ as ∈ p.accounts, accountConsistent as.2

instance (p : Pool) : Decidable p.Consistent := by
  unfold Pool.Consistent; infer_instance

/-- An operation of the sealing interface (spec section 6): harvest with a
budget, commit with block metadata, or abandon. -/
inductive PoolOp
  | pop (maxGas : Nat)
  | markIncluded (hs : List (Nat × BlockMeta))
  | demote (hs : List Nat)

/-- Whether the operation is a Demote. -/
def PoolOp.isDemote : PoolOp → Bool
  | PoolOp.demote _ => true
  | _ => false

/-- Run a sequence of sealing operations, concatenating every Pop result. -/
def runOps : Pool → List PoolOp → List Transaction × Pool
  | p, [] => ([], p)
  | p, PoolOp.pop g :: ops =>
    let r := p.pop g
    let rest := runOps r.2 ops
    (r.1 ++ rest.1, rest.2)
  | p, PoolOp.markIncluded hs :: ops => runOps (p.markIncluded hs) ops
  | p, PoolOp.demote hs :: ops => runOps (p.demote hs) ops

/-- The data of an entry without its status flag: the transaction (sender,
nonce, gas, price, value, signature, hash identity) and its insertion
sequence number (position and priority). -/
def entryData (e : PoolEntry) : Transaction × Nat := (e.tx, e.seq)

/-- The whole pool state with every status flag erased. -/
def dataView (p : Pool) :
    List (Nat × Nat × List (Transaction × Nat)) × Nat × List IncludedRecord :=
  (p.accounts.map (fun as => (as.1, as.2.nextNonce, as.2.queue.map entryData)),
    p.seqCounter, p.included)

/-- The transaction sent by account `a` at nonce `n` in the stress-addition
scenario: ten accounts each submit fifty sequential transfers. -/
def txC8 (a n : Nat) : Transaction := ⟨a, n, 10, 21000, 1, true⟩

/-- Run a schedule of stress-addition submissions: each schedule entry
`(a, n)` is an Add of the transaction of account `a` at nonce `n`. -/
def runAdds : Pool → List (Nat × Nat) → List (Except AddError Nat) × Pool
  | p, [] => ([], p)
  | p, an :: rest =>
    let r := p.add (txC8 an.1 an.2)
    let res := runAdds r.2 rest
    (r.1 :: res.1, res.2)

/-- Inclusion of all five hundred stress-addition transactions: per account,
nonces in ascending order. -/
def includeAllC8 : List (Nat × BlockMeta) :=
  (List.range 10).flatMap
    (fun a => (List.range 50).map (fun n => ((txC8 a n).hash, ⟨1, 1, 0⟩)))

/-- The sequential schedule: account by account, nonces ascending. -/
def schedC8 : List (Nat × Nat) :=
  (List.range 10).flatMap (fun a => (List.range 50).map (fun n => (a, n)))

/-- Invariant of the stress-addition submission phase: `cnt a` counts the
submissions of account `a` performed so far; every resident account holds
exactly the transactions at nonces below its count, in order, with confirmed
nonce still zero. -/
def InvC8 (p : Pool) (cnt : Nat → Nat) : Prop :=
  (p.accounts.map Prod.fst).Nodup ∧
  (∀ as ∈ p.accounts, cnt as.1 ≠ 0 ∧ as.2.nextNonce = 0 ∧
    as.2.queue.map PoolEntry.tx = (List.range (cnt as.1)).map (txC8 as.1)) ∧
  (∀ a, a ∉ p.accounts.map Prod.fst → cnt a = 0)

/-- Invariant of the stress-addition inclusion phase: `f a` counts the
transactions of account `a` already committed; the remaining queue holds the
nonces from `f a` up to 49 and the confirmed nonce equals `f a`. -/
def InclC8 (p : Pool) (f : Nat → Nat) : Prop :=
  (p.accounts.map Prod.fst).Nodup ∧
  (∀ as ∈ p.accounts, as.1 < 10 ∧ f as.1 ≤ 50 ∧ as.2.nextNonce = f as.1 ∧
    as.2.queue.map PoolEntry.tx =
      (List.range' (f as.1) (50 - f as.1)).map (txC8 as.1)) ∧
  (∀ a, a < 10 → a ∈ p.accounts.map Prod.fst)

/-- The budget-deferral scenario's first transaction: nonce 0, gas 22000. -/
def txA0 : Transaction := ⟨1, 0, 1000, 22000, 1, true⟩

/-- The budget-deferral scenario's second transaction: nonce 1, gas 22000. -/
def txA1 : Transaction := ⟨1, 1, 1000, 22000, 1, true⟩

/-- The budget-deferral scenario's third transaction: nonce 2, gas 22000. -/
def txA2 : Transaction := ⟨1, 2, 1000, 22000, 1, true⟩

/-- The pool holding the three budget-deferral transactions. -/
def pC1 : Pool := (((emptyPool.add txA0).2.add txA1).2.add txA2).2

/-- The pool after the first Pop of the deferral scenario and the commit of
the two selected transactions with their block metadata. -/
def pC1b : Pool :=
  (pC1.pop 52500).2.markIncluded [(txA0.hash, ⟨1, 1, 0⟩), (txA1.hash, ⟨1, 1, 1⟩)]

/-- The deferral scenario as a sealing-operation sequence: harvest, commit
the two selected transactions, harvest again. -/
def opsC3w : List PoolOp :=
  [PoolOp.pop 52500,
   PoolOp.markIncluded [(txA0.hash, ⟨1, 1, 0⟩), (txA1.hash, ⟨1, 1, 1⟩)],
   PoolOp.pop 52500]

/-- A lone transaction used to exhibit re-selection after Demote. -/
def txB0 : Transaction := ⟨7, 0, 10, 21000, 1, true⟩

/-- A pool holding only `txB0`. -/
def pC3 : Pool := (emptyPool.add txB0).2

/-- Replace-by-fee scenario: (sender 1, nonce 5, price 10). -/
def tx5a : Transaction := ⟨1, 5, 10, 21000, 1, true⟩

/-- Replace-by-fee scenario: (sender 1, nonce 5, price 20). -/
def tx5b : Transaction := ⟨1, 5, 20, 21000, 1, true⟩

/-- Replace-by-fee scenario: (sender 1, nonce 5, price 15). -/
def tx5c : Transaction := ⟨1, 5, 15, 21000, 1, true⟩

/-- The pool after inserting the price-10 transaction at nonce 5. -/
def p7a : Pool := (emptyPool.add tx5a).2

/-- The pool after additionally inserting the price-20 replacement. -/
def p7b : Pool := (p7a.add tx5b).2

instance : DecidableEq (Except AddError Nat) := fun x y =>
  match x, y with
  | Except.ok a, Except.ok b =>
    decidable_of_iff (a = b) (by constructor <;> intro h <;> simp_all)
  | Except.error a, Except.error b =>
    decidable_of_iff (a = b) (by constructor <;> intro h <;> simp_all)
  | Except.ok _, Except.error _ => isFalse (by intro h; cases h)
  | Except.error _, Except.ok _ => isFalse (by intro h; cases h)

end TxPool

namespace Bridge

/-- A structured logger; `named` appends a sub-logger name, as
`logger.Named` does in `bridge/bridge.go`. -/
structure Logger where
  names : List String
deriving DecidableEq, Repr

/-- `Logger.named`, mirroring `hclog.Logger.Named`. -/
def Logger.named (l : Logger) (s : String) : Logger :=
  ⟨l.names ++ [s]⟩

/-- The validator set handed to the bridge, mirroring
`utils.NewValidatorSet(nil, 0)` in `NewBridge`. -/
structure ValidatorSet where
  validators : List Nat
  threshold : Nat
deriving DecidableEq, Repr

/-- The state-sync collaborator, abstracted by the outcomes its `Start` and
`Close` calls produce (`nil` is `none`, a non-nil error is `some`). -/
structure StateSync where
  startResult : Option Nat
  closeResult : Option Nat
deriving DecidableEq, Repr

/-- The `bridge` struct of `bridge/bridge.go`: logger, state sync and
validator set. -/
structure BridgeS where
  logger : Logger
  stateSync : StateSync
  validatorSet : ValidatorSet
deriving DecidableEq, Repr

/-- `NewBridge` from `bridge/bridge.go`: name the logger, build the empty
validator set, call `statesync.NewStateSync` (its outcome is the
`newStateSync` argument); on error return that error unchanged, otherwise
wrap the three fields. -/
def NewBridge (logger : Logger) (newStateSync : Except Nat StateSync) :
    Except Nat BridgeS :=
  let bridgeLogger := logger.named "bridge"
  let valSet : ValidatorSet := ⟨[], 0⟩
  match newStateSync with
  | Except.error err => Except.error err
  | Except.ok stateSync =>
    Except.ok ⟨bridgeLogger, stateSync, valSet⟩

/-- `bridge.Start` from `bridge/bridge.go`: if `stateSync.Start()` returns a
non-nil error, return it; otherwise return nil.  The bridge itself is
untouched (the second component is the bridge after the call). -/
def BridgeS.start (b : BridgeS) : Option Nat × BridgeS :=
  match b.stateSync.startResult with
  | some err => (some err, b)
  | none => (none, b)

/-- `bridge.Close` from `bridge/bridge.go`: if `stateSync.Close()` returns a
non-nil error, return it; otherwise return nil. -/
def BridgeS.close (b : BridgeS) : Option Nat × BridgeS :=
  match b.stateSync.closeResult with
  | some err => (some err, b)
  | none => (none, b)

end Bridge

namespace TxPool

/-! ### Basic lemmas -/

theorem Transaction.hash_inj {t₁ t₂ : Transaction} (h : t₁.hash = t₂.hash) :
    t₁ = t₂ := by
  unfold Transaction.hash at h
  obtain ⟨h₁, h⟩ := Nat.pair_eq_pair.mp h
  obtain ⟨h₂, h⟩ := Nat.pair_eq_pair.mp h
  obtain ⟨h₃, h⟩ := Nat.pair_eq_pair.mp h
  obtain ⟨h₄, h⟩ := Nat.pair_eq_pair.mp h
  obtain ⟨h₅, h⟩ := Nat.pair_eq_pair.mp h
  have h₆ : t₁.sigOk = t₂.sigOk := by
    cases hb₁ : t₁.sigOk <;> cases hb₂ : t₂.sigOk <;> simp [hb₁, hb₂] at h ⊢
  cases t₁; cases t₂; simp_all

theorem lookupAccount_updateAssoc_self (l : List (Nat × AccountState))
    (a : Nat) (st : AccountState) :
    lookupAccount (updateAssoc l a st) a = some st := by
  induction l with
  | nil => simp [updateAssoc, lookupAccount]
  | cons hd tl ih =>
    obtain ⟨b, s⟩ := hd
    by_cases hb : b = a
    · simp [updateAssoc, hb, lookupAccount]
    · simp [updateAssoc, hb, lookupAccount, ih]

theorem lookupAccount_updateAssoc_ne (l : List (Nat × AccountState))
    (a b : Nat) (st : AccountState) (h : b ≠ a) :
    lookupAccount (updateAssoc l a st) b = lookupAccount l b := by
  induction l with
  | nil => simp [updateAssoc, lookupAccount]; omega
  | cons hd tl ih =>
    obtain ⟨c, s⟩ := hd
    by_cases hc : c = a
    · subst hc
      have hab : ¬ c = b := fun hh => h hh.symm
      simp [updateAssoc, lookupAccount, hab]
    · simp only [updateAssoc, if_neg hc, lookupAccount]
      by_cases hcb : c = b
      · simp [hcb]
      · simp [hcb, ih]

theorem mem_updateAssoc {l : List (Nat × AccountState)} {a : Nat}
    {st : AccountState} {x : Nat × AccountState} (hx : x ∈ updateAssoc l a st) :
    x = (a, st) ∨ x ∈ l := by
  induction l with
  | nil => simpa [updateAssoc] using hx
  | cons hd tl ih =>
    obtain ⟨b, s⟩ := hd
    by_cases hb : b = a
    · simp [updateAssoc, hb] at hx
      rcases hx with h | h
      · exact Or.inl (by simp [h])
      · exact Or.inr (List.mem_cons_of_mem _ h)
    · simp [updateAssoc, hb] at hx
      rcases hx with h | h
      · exact Or.inr (by simp [h])
      · rcases ih h with h' | h'
        · exact Or.inl h'
        · exact Or.inr (List.mem_cons_of_mem _ h')

theorem keys_nodup_updateAssoc (l : List (Nat × AccountState)) (a : Nat)
    (st : AccountState) (h : (l.map Prod.fst).Nodup) :
    ((updateAssoc l a st).map Prod.fst).Nodup := by
  induction l with
  | nil => simp [updateAssoc]
  | cons hd tl ih =>
    obtain ⟨b, s⟩ := hd
    simp at h
    by_cases hb : b = a
    · subst hb
      simpa [updateAssoc] using h
    · have htl := ih h.2
      simp [updateAssoc, hb]
      refine ⟨?_, htl⟩
      intro x hx
      rcases mem_updateAssoc hx with heq | hx'
      · exact hb (congrArg Prod.fst heq)
      · exact h.1 x hx'

theorem mem_of_lookupAccount {l : List (Nat × AccountState)} {a : Nat}
    {st : AccountState} (h : lookupAccount l a = some st) : (a, st) ∈ l := by
  induction l with
  | nil => simp [lookupAccount] at h
  | cons hd tl ih =>
    obtain ⟨b, s⟩ := hd
    by_cases hb : b = a
    · subst hb
      simp [lookupAccount] at h
      simp [h]
    · simp [lookupAccount, hb] at h
      exact List.mem_cons_of_mem _ (ih h)

theorem lookupAccount_eq_some_of_mem {l : List (Nat × AccountState)}
    (hnd : (l.map Prod.fst).Nodup) {a : Nat} {st : AccountState}
    (hm : (a, st) ∈ l) : lookupAccount l a = some st := by
  induction l with
  | nil => simp at hm
  | cons hd tl ih =>
    obtain ⟨b, s⟩ := hd
    simp at hnd
    rcases List.mem_cons.mp hm with heq | h
    · injection heq with h1 h2
      subst h1; subst h2
      simp [lookupAccount]
    · have hba : ¬ b = a := by
        intro hba
        subst hba
        exact hnd.1 st h
      simp [lookupAccount, hba]
      exact ih hnd.2 h

theorem accountWF_getAccount {p : Pool} (h : p.WF) (a : Nat) :
    accountWF a (getAccount p a) := by
  unfold getAccount
  cases hl : lookupAccount p.accounts a with
  | none => simp [accountWF]
  | some st => exact h.2 (a, st) (mem_of_lookupAccount hl)

theorem accountConsistent_getAccount {p : Pool} (h : p.Consistent) (a : Nat) :
    accountConsistent (getAccount p a) := by
  unfold getAccount
  cases hl : lookupAccount p.accounts a with
  | none => simp [accountConsistent]
  | some st => exact h (a, st) (mem_of_lookupAccount hl)

theorem popLoop_budget (fuel : Nat) :
    ∀ (p : Pool) (blocked : List Nat) (budget : Nat),
    ((popLoop fuel p blocked budget).1.map Transaction.gas).sum ≤ budget := by
  induction fuel with
  | zero => intro p blocked budget; simp [popLoop]
  | succ n ih =>
    intro p blocked budget
    rw [popLoop]
    cases hb : bestHead p blocked with
    | none => simp
    | some ae =>
      obtain ⟨a, e⟩ := ae
      by_cases hg : e.tx.gas ≤ budget
      · have := ih (markSelectedAt p a e.tx.nonce) blocked (budget - e.tx.gas)
        simp only [hg, if_pos]
        simp only [List.map_cons, List.sum_cons]
        omega
      · simp only [hg, if_neg, not_false_iff]
        exact ih p (a :: blocked) budget

theorem find?_min_nonce {q : List PoolEntry} {pred : PoolEntry → Bool}
    {e : PoolEntry}
    (hs : q.Pairwise (fun e₁ e₂ => e₁.tx.nonce < e₂.tx.nonce))
    (hf : q.find? pred = some e) :
    ∀ e' ∈ q, pred e' = true → e.tx.nonce ≤ e'.tx.nonce := by
  induction q with
  | nil => cases hf
  | cons hd tl ih =>
    rw [List.find?_cons] at hf
    rw [List.pairwise_cons] at hs
    by_cases hp : pred hd
    · simp [hp] at hf
      subst hf
      intro e' he' _
      rcases List.mem_cons.mp he' with rfl | h'
      · exact le_refl _
      · exact le_of_lt (hs.1 e' h')
    · simp [hp] at hf
      intro e' he' hpe'
      rcases List.mem_cons.mp he' with rfl | h'
      · exact absurd hpe' (by simpa using hp)
      · exact ih hs.2 hf e' h' hpe'

/-- C2: for every call Pop(maxGas) and every pool state, the sum of the gas
limits of the transactions in the returned list is at most maxGas. -/
theorem pop_budget (p : Pool) (maxGas : Nat) :
    ((p.pop maxGas).1.map Transaction.gas).sum ≤ maxGas :=
  popLoop_budget _ p [] maxGas

/-- C5: Add never surfaces the recoverable deferral class as an error: for
every pool and transaction, the result of Add is never the error
DeferredInsufficientBudget, and whenever admission succeeds the returned
value is exactly the transaction's hash.  (Pop, MarkIncluded and Demote
return no error values at all by their types.) -/
theorem add_result_cases (p : Pool) (tx : Transaction) :
    (p.add tx).1 = Except.ok tx.hash ∨
    (p.add tx).1 = Except.error AddError.rejectedInvalidSignature ∨
    (p.add tx).1 = Except.error AddError.rejectedNonceTooLow ∨
    (p.add tx).1 = Except.error AddError.rejectedUnderpriced := by
  unfold Pool.add
  repeat' split
  all_goals simp

/-- C5: Add never surfaces the recoverable deferral class as an error: for
every pool and transaction, the result of Add is never the error
DeferredInsufficientBudget, and whenever admission succeeds the returned
value is exactly the transaction's hash.  (Pop, MarkIncluded and Demote
return no error values at all by their types.) -/
theorem add_never_deferred (p : Pool) (tx : Transaction) :
    (p.add tx).1 ≠ Except.error AddError.deferredInsufficientBudget ∧
    ∀ h, (p.add tx).1 = Except.ok h → h = tx.hash := by
  have hc := add_result_cases p tx
  constructor
  · rcases hc with h | h | h | h <;> simp [h]
  · intro hh hok
    rcases hc with h | h | h | h <;> rw [h] at hok
    · injection hok with hi
      exact hi.symm
    all_goals cases hok

/-- Witness for C5 at a concrete input: adding the deferral scenario's first
transaction to the empty pool succeeds and returns its hash. -/
theorem add_never_deferred_witness :
    (emptyPool.add txA0).1 = Except.ok txA0.hash ∧ txA0.hash = txA0.hash :=
  ⟨by decide, (add_never_deferred emptyPool txA0).2 txA0.hash (by decide)⟩

theorem mem_updateAssoc_strong {l : List (Nat × AccountState)}
    (hnd : (l.map Prod.fst).Nodup) {a : Nat} {st : AccountState}
    {x : Nat × AccountState} (hx : x ∈ updateAssoc l a st) :
    x = (a, st) ∨ (x ∈ l ∧ x.1 ≠ a) := by
  induction l with
  | nil =>
    simp [updateAssoc] at hx
    exact Or.inl (by simp [hx])
  | cons hd tl ih =>
    obtain ⟨b, s⟩ := hd
    simp at hnd
    by_cases hb : b = a
    · subst hb
      simp [updateAssoc] at hx
      rcases hx with h | h
      · exact Or.inl (by simp [h])
      · refine Or.inr ⟨List.mem_cons_of_mem _ h, ?_⟩
        intro hxa
        apply hnd.1 x.2
        have hx2 : (b, x.2) = x := by
          rw [← hxa]
        rwa [hx2]
    · simp [updateAssoc, hb] at hx
      rcases hx with h | h
      · exact Or.inr ⟨by simp [h], by simp [h, hb]⟩
      · rcases ih hnd.2 h with h' | h'
        · exact Or.inl h'
        · exact Or.inr ⟨List.mem_cons_of_mem _ h'.1, h'.2⟩

theorem findByHash_spec {l : List (Nat × AccountState)} {h : Nat}
    {a : Nat} {e : PoolEntry} (hf : findByHash l h = some (a, e)) :
    ∃ st, (a, st) ∈ l ∧ e ∈ st.queue ∧ e.tx.hash = h := by
  induction l with
  | nil => cases hf
  | cons hd tl ih =>
    obtain ⟨b, st⟩ := hd
    unfold findByHash at hf
    cases hq : st.queue.find? (fun e' => e'.tx.hash == h) with
    | some e' =>
      rw [hq] at hf
      injection hf with hf
      injection hf with hf1 hf2
      subst hf1; subst hf2
      refine ⟨st, List.mem_cons_self _ _, List.mem_of_find?_eq_some hq, ?_⟩
      have := List.find?_some hq
      simpa using this
    | none =>
      rw [hq] at hf
      obtain ⟨st', hm, hq', hh⟩ := ih hf
      exact ⟨st', List.mem_cons_of_mem _ hm, hq', hh⟩

theorem findByHash_eq_none {l : List (Nat × AccountState)} {h : Nat}
    (hall : ∀ x ∈ l, ∀ e ∈ x.2.queue, ¬ e.tx.hash = h) :
    findByHash l h = none := by
  induction l with
  | nil => rfl
  | cons hd tl ih =>
    unfold findByHash
    obtain ⟨b, st⟩ := hd
    cases hq : st.queue.find? (fun e' => e'.tx.hash == h) with
    | some e' =>
      have hm := List.mem_of_find?_eq_some hq
      have hp := List.find?_some hq
      exact absurd (by simpa using hp) (hall (b, st) (List.mem_cons_self _ _) e' hm)
    | none =>
      exact ih (fun x hx => hall x (List.mem_cons_of_mem _ hx))

theorem promoteAccount_tx_mem {st : AccountState} {e : PoolEntry}
    (he : e ∈ (promoteAccount st).queue) :
    ∃ e₀ ∈ st.queue, e.tx = e₀.tx := by
  simp only [promoteAccount, List.mem_map] at he
  obtain ⟨e₀, he₀, rfl⟩ := he
  refine ⟨e₀, he₀, ?_⟩
  unfold recomputeStatus
  split <;> rfl

theorem markIncludedOne_getByHash {p : Pool} {h : Nat} (m : BlockMeta)
    {a : Nat} {e : PoolEntry} (hwf : p.WF)
    (hfind : findByHash p.accounts h = some (a, e)) :
    (markIncludedOne p h m).getByHash h =
      some ⟨e.tx, m.blockNumber, m.blockHash, m.txIndex⟩ := by
  obtain ⟨sta, hmem, hinq, hhash⟩ := findByHash_spec hfind
  have hsender : e.tx.sender = a := (hwf.2 (a, sta) hmem).2 e hinq
  unfold markIncludedOne
  rw [hfind]
  unfold Pool.getByHash
  have hnone : findByHash
      (updateAssoc p.accounts a
        (promoteAccount { nextNonce := max (getAccount p a).nextNonce (e.tx.nonce + 1),
                          queue := (getAccount p a).queue.filter
                            (fun e' => ¬ e'.tx.hash = h) })) h = none := by
    apply findByHash_eq_none
    intro x hx e' he' hh'
    rcases mem_updateAssoc_strong hwf.1 hx with rfl | ⟨hxl, hxa⟩
    · obtain ⟨e₀, he₀, htx⟩ := promoteAccount_tx_mem he'
      have he₀' := List.mem_of_mem_filter he₀
      have hne := List.of_mem_filter he₀
      rw [htx] at hh'
      simp at hne
      exact hne hh'
    · have hsender' : e'.tx.sender = x.1 := (hwf.2 x hxl).2 e' he'
      have : e'.tx = e.tx := Transaction.hash_inj (hh'.trans hhash.symm)
      rw [this, hsender] at hsender'
      exact hxa hsender'.symm
  rw [hnone]
  have : e.tx.hash == h := by simpa using hhash
  simp [List.find?_cons, this]

/-- C9: pending-lookup transitions: GetByHash on an admitted, not-yet
included transaction reports it with block number, block hash and
transaction index all zero; after MarkIncluded attached the block metadata,
the same lookup reports exactly that metadata. -/
theorem pending_lookup_transitions (p : Pool) (h : Nat) (m : BlockMeta)
    (a : Nat) (e : PoolEntry) (hwf : p.WF)
    (hfind : findByHash p.accounts h = some (a, e)) :
    p.getByHash h = some ⟨e.tx, 0, 0, 0⟩ ∧
    (p.markIncluded [(h, m)]).getByHash h =
      some ⟨e.tx, m.blockNumber, m.blockHash, m.txIndex⟩ := by
  constructor
  · unfold Pool.getByHash
    rw [hfind]
  · show (markIncludedOne p h m).getByHash h = _
    exact markIncludedOne_getByHash m hwf hfind

/-- Witness for C9 at a concrete input: the deferral scenario's first
transaction, looked up pending and after inclusion at block 5. -/
theorem pending_lookup_transitions_witness :
    ((emptyPool.add txA0).2.WF ∧
      findByHash (emptyPool.add txA0).2.accounts txA0.hash =
        some (1, ⟨txA0, 0, TxStatus.executable⟩)) ∧
    ((emptyPool.add txA0).2.getByHash txA0.hash = some ⟨txA0, 0, 0, 0⟩ ∧
      (((emptyPool.add txA0).2.markIncluded [(txA0.hash, ⟨5, 77, 0⟩)]).getByHash
        txA0.hash) = some ⟨txA0, 5, 77, 0⟩) :=
  ⟨⟨by decide, by decide⟩,
    pending_lookup_transitions (emptyPool.add txA0).2 txA0.hash ⟨5, 77, 0⟩ 1
      ⟨txA0, 0, TxStatus.executable⟩ (by decide) (by decide)⟩

theorem recomputeStatus_tx (fr : Nat) (e : PoolEntry) :
    (recomputeStatus fr e).tx = e.tx := by
  unfold recomputeStatus
  split <;> rfl

theorem markEntry_tx (n : Nat) (e : PoolEntry) : (markEntry n e).tx = e.tx := by
  unfold markEntry
  split <;> rfl

theorem markEntry_seq (n : Nat) (e : PoolEntry) : (markEntry n e).seq = e.seq := by
  unfold markEntry
  split <;> rfl

theorem demoteEntry_tx (hs : List Nat) (fr : Nat) (e : PoolEntry) :
    (demoteEntry hs fr e).tx = e.tx := by
  unfold demoteEntry
  split <;> rfl

theorem demoteEntry_seq (hs : List Nat) (fr : Nat) (e : PoolEntry) :
    (demoteEntry hs fr e).seq = e.seq := by
  unfold demoteEntry
  split <;> rfl

theorem find?_nonce_unique {q : List PoolEntry}
    (hp : q.Pairwise (fun e₁ e₂ => e₁.tx.nonce < e₂.tx.nonce))
    {e : PoolEntry} (he : e ∈ q) {n : Nat} (hn : e.tx.nonce = n) :
    q.find? (fun e' => e'.tx.nonce == n) = some e := by
  induction q with
  | nil => cases he
  | cons hd tl ih =>
    rw [List.pairwise_cons] at hp
    rcases List.mem_cons.mp he with rfl | htl
    · rw [List.find?_cons]
      simp [hn]
    · have hhd : ¬ hd.tx.nonce = n := by
        have := hp.1 e htl
        omega
      have hb : (hd.tx.nonce == n) = false := by simpa using hhd
      rw [List.find?_cons, hb]
      exact ih hp.2 htl

theorem getAccount_updateAssoc_self (l : List (Nat × AccountState)) (a : Nat)
    (st : AccountState) (sq : Nat) (inc : List IncludedRecord) :
    getAccount ⟨updateAssoc l a st, sq, inc⟩ a = st := by
  unfold getAccount
  rw [show (Pool.mk (updateAssoc l a st) sq inc).accounts = updateAssoc l a st from rfl]
  rw [lookupAccount_updateAssoc_self]

theorem filter_nonce_map_replace {q : List PoolEntry}
    (hp : q.Pairwise (fun e₁ e₂ => e₁.tx.nonce < e₂.tx.nonce))
    {e : PoolEntry} (he : e ∈ q) {n : Nat} (hn : e.tx.nonce = n)
    {newE : PoolEntry} (hne : newE.tx.nonce = n) :
    (q.map (replaceAt n newE)).filter (fun x => x.tx.nonce == n) = [newE] := by
  induction q with
  | nil => cases he
  | cons hd tl ih =>
    rw [List.pairwise_cons] at hp
    by_cases hhd : hd.tx.nonce = n
    · have h1 : replaceAt n newE hd = newE := by simp [replaceAt, hhd]
      have hrest : (tl.map (replaceAt n newE)).filter
          (fun x => x.tx.nonce == n) = [] := by
        rw [List.filter_eq_nil_iff]
        intro x hx
        rw [List.mem_map] at hx
        obtain ⟨x₀, hx₀, rfl⟩ := hx
        have hlt := hp.1 x₀ hx₀
        have hxne : ¬ x₀.tx.nonce = n := by omega
        simp [replaceAt, hxne]
      rw [List.map_cons, h1, List.filter_cons]
      simp only [hne, beq_self_eq_true, if_true]
      rw [hrest]
    · have h1 : replaceAt n newE hd = hd := by simp [replaceAt, hhd]
      have he' : e ∈ tl := by
        rcases List.mem_cons.mp he with rfl | h
        · exact absurd hn hhd
        · exact h
      rw [List.map_cons, h1, List.filter_cons]
      rw [if_neg (by simpa using hhd)]
      exact ih hp.2 he'

/-- C7: replace-by-fee: inserting (sender 1, nonce 5, price 10) then
(1, 5, price 20) leaves exactly one entry at nonce 5 carrying price 20, and
a later (1, 5, price 15) is rejected as underpriced leaving the pool
unchanged; in general, for a well-formed pool holding an entry at the
incoming transaction's (sender, nonce), the entry is replaced when the
incoming gas price is strictly higher and the submission is rejected as
underpriced (pool untouched) otherwise. -/
theorem replace_by_fee :
    ((p7a.add tx5b).1 = Except.ok tx5b.hash ∧
      ((getAccount p7b 1).queue.map PoolEntry.tx) = [tx5b] ∧
      (p7b.add tx5c).1 = Except.error AddError.rejectedUnderpriced ∧
      (p7b.add tx5c).2 = p7b) ∧
    (∀ (p : Pool) (tx : Transaction) (e : PoolEntry), p.WF →
      e ∈ (getAccount p tx.sender).queue → e.tx.nonce = tx.nonce →
      containsHash p tx.hash = false → tx.sigOk = true →
      (getAccount p tx.sender).nextNonce ≤ tx.nonce →
      ((e.tx.gasPrice < tx.gasPrice →
        (p.add tx).1 = Except.ok tx.hash ∧
        (((getAccount (p.add tx).2 tx.sender).queue.filter
            (fun e' => e'.tx.nonce == tx.nonce)).map PoolEntry.tx) = [tx]) ∧
       (tx.gasPrice ≤ e.tx.gasPrice →
        (p.add tx).1 = Except.error AddError.rejectedUnderpriced ∧
        (p.add tx).2 = p))) := by
  constructor
  · exact ⟨by decide, by decide, by decide, by decide⟩
  · intro p tx e hwf he hn hh hsig hnn
    have hpw := (accountWF_getAccount hwf tx.sender).1
    have hfind := find?_nonce_unique hpw he hn
    have hnlt : ¬ tx.nonce < (getAccount p tx.sender).nextNonce := by omega
    constructor
    · intro hlt
      constructor
      · unfold Pool.add
        simp [hh, hsig, hnlt, hfind, hlt]
      · unfold Pool.add
        simp only [hh, Bool.false_eq_true, if_false, hsig, not_true_eq_false,
          hnlt, hfind, hlt, if_pos, if_true]
        rw [getAccount_updateAssoc_self]
        dsimp only [promoteAccount]
        rw [List.filter_map]
        rw [List.filter_congr (fun x _ => by
          rw [Function.comp_apply, recomputeStatus_tx])]
        rw [filter_nonce_map_replace hpw he hn (by rfl)]
        simp [recomputeStatus_tx]
    · intro hle
      have hnlt2 : ¬ e.tx.gasPrice < tx.gasPrice := by omega
      constructor <;>
      · unfold Pool.add
        simp [hh, hsig, hnlt, hfind, hnlt2]

/-- Witness for C7 at a concrete input: the general replace-by-fee clause
applied to the pool holding the price-10 entry and the incoming price-20
transaction. -/
theorem replace_by_fee_witness :
    (p7a.WF ∧ (⟨tx5a, 0, TxStatus.queued⟩ : PoolEntry) ∈ (getAccount p7a 1).queue ∧
      containsHash p7a tx5b.hash = false) ∧
    ((p7a.add tx5b).1 = Except.ok tx5b.hash ∧
      (((getAccount (p7a.add tx5b).2 1).queue.filter
          (fun e' => e'.tx.nonce == 5)).map PoolEntry.tx) = [tx5b]) :=
  ⟨⟨by decide, by decide, by decide⟩,
    (replace_by_fee.2 p7a tx5b ⟨tx5a, 0, TxStatus.queued⟩ (by decide) (by decide)
      (by decide) (by decide) (by decide) (by decide)).1 (by decide)⟩

/-- C1: budget-deferral scenario: with three transactions of one sender at
nonces 0, 1, 2, each of gas 22000, and a sealing budget of 52500, the first
Pop returns exactly the transactions at nonces 0 and 1 with total gas 44000,
the nonce-2 transaction is not in that result, and after the two selected
transactions commit, a subsequent Pop with a fresh budget returns exactly
the nonce-2 transaction. -/
theorem budget_deferral_scenario :
    (pC1.pop 52500).1 = [txA0, txA1] ∧
    ((pC1.pop 52500).1.map Transaction.gas).sum = 44000 ∧
    txA2 ∉ (pC1.pop 52500).1 ∧
    (pC1b.pop 52500).1 = [txA2] := by decide

/-- C6: duplicate submission is an idempotent no-op success: if an entry with
the transaction's hash is already resident, Add returns the same hash with no
error and leaves the pool state entirely unchanged, so no duplicate entry is
created and the hash stays unique across the pool. -/
theorem add_duplicate_idempotent (p : Pool) (tx : Transaction)
    (h : containsHash p tx.hash = true) :
    p.add tx = (Except.ok tx.hash, p) := by
  unfold Pool.add
  simp [h]

/-- Witness for C6 at a concrete input: re-adding the deferral scenario's
first transaction to the pool that already holds it changes nothing. -/
theorem add_duplicate_idempotent_witness :
    containsHash pC1 txA0.hash = true ∧ pC1.add txA0 = (Except.ok txA0.hash, pC1) :=
  ⟨by decide, add_duplicate_idempotent pC1 txA0 (by decide)⟩

/-! ### Structure of the Pop selection loop -/

theorem popLoop_succ_none {fuel : Nat} {p : Pool} {blocked : List Nat}
    {budget : Nat} (hb : bestHead p blocked = none) :
    popLoop (fuel + 1) p blocked budget = ([], p) := by
  rw [popLoop, hb]

theorem popLoop_succ_fit {fuel : Nat} {p : Pool} {blocked : List Nat}
    {budget : Nat} {a : Nat} {e : PoolEntry}
    (hb : bestHead p blocked = some (a, e)) (hg : e.tx.gas ≤ budget) :
    popLoop (fuel + 1) p blocked budget =
      (e.tx :: (popLoop fuel (markSelectedAt p a e.tx.nonce) blocked
          (budget - e.tx.gas)).1,
        (popLoop fuel (markSelectedAt p a e.tx.nonce) blocked
          (budget - e.tx.gas)).2) := by
  rw [popLoop, hb]
  simp [hg]

theorem popLoop_succ_nofit {fuel : Nat} {p : Pool} {blocked : List Nat}
    {budget : Nat} {a : Nat} {e : PoolEntry}
    (hb : bestHead p blocked = some (a, e)) (hg : ¬ e.tx.gas ≤ budget) :
    popLoop (fuel + 1) p blocked budget = popLoop fuel p (a :: blocked) budget := by
  rw [popLoop, hb]
  simp [hg]

theorem headEntry_mem {st : AccountState} {e : PoolEntry}
    (h : headEntry st = some e) :
    e ∈ st.queue ∧ e.status = TxStatus.executable := by
  unfold headEntry at h
  exact ⟨List.mem_of_find?_eq_some h, by simpa using List.find?_some h⟩

theorem getAccount_eq_of_mem {p : Pool} (hnd : (p.accounts.map Prod.fst).Nodup)
    {a : Nat} {st : AccountState} (hm : (a, st) ∈ p.accounts) :
    getAccount p a = st := by
  unfold getAccount
  rw [lookupAccount_eq_some_of_mem hnd hm]

theorem bestHeadAux_spec {l : List (Nat × AccountState)} {blocked : List Nat}
    {b : Nat} {e : PoolEntry} (h : bestHeadAux l blocked = some (b, e)) :
    b ∉ blocked ∧ ∃ st, (b, st) ∈ l ∧ headEntry st = some e := by
  induction l with
  | nil => cases h
  | cons hd tl ih =>
    obtain ⟨a, st⟩ := hd
    rw [bestHeadAux] at h
    by_cases hbl : a ∈ blocked
    · rw [if_pos hbl] at h
      obtain ⟨hnb, st', hm, hh⟩ := ih h
      exact ⟨hnb, st', List.mem_cons_of_mem _ hm, hh⟩
    · rw [if_neg hbl] at h
      cases hhe : headEntry st with
      | none =>
        rw [hhe] at h
        obtain ⟨hnb, st', hm, hh⟩ := ih h
        exact ⟨hnb, st', List.mem_cons_of_mem _ hm, hh⟩
      | some e0 =>
        simp only [hhe] at h
        cases hr : bestHeadAux tl blocked with
        | none =>
          simp only [hr, Option.some.injEq, Prod.mk.injEq] at h
          obtain ⟨h1, h2⟩ := h
          subst h1; subst h2
          exact ⟨hbl, st, List.mem_cons_self _ _, hhe⟩
        | some be =>
          obtain ⟨b', e'⟩ := be
          simp only [hr] at h
          by_cases hbet : betterHead e0 e' = true
          · rw [if_pos hbet] at h
            simp only [Option.some.injEq, Prod.mk.injEq] at h
            obtain ⟨h1, h2⟩ := h
            subst h1; subst h2
            exact ⟨hbl, st, List.mem_cons_self _ _, hhe⟩
          · rw [if_neg hbet] at h
            simp only [Option.some.injEq, Prod.mk.injEq] at h
            obtain ⟨h1, h2⟩ := h
            subst h1; subst h2
            obtain ⟨hnb, st', hm, hh⟩ := ih hr
            exact ⟨hnb, st', List.mem_cons_of_mem _ hm, hh⟩

theorem bestHead_spec {p : Pool} (hwf : p.WF) {blocked : List Nat}
    {b : Nat} {e : PoolEntry} (h : bestHead p blocked = some (b, e)) :
    b ∉ blocked ∧ headEntry (getAccount p b) = some e ∧
      e ∈ (getAccount p b).queue ∧ e.status = TxStatus.executable ∧
      e.tx.sender = b := by
  obtain ⟨hnb, st, hm, hh⟩ := bestHeadAux_spec h
  have hget : getAccount p b = st := getAccount_eq_of_mem hwf.1 hm
  obtain ⟨hq, hex⟩ := headEntry_mem hh
  refine ⟨hnb, by rw [hget]; exact hh, by rw [hget]; exact hq, hex, ?_⟩
  exact (hwf.2 (b, st) hm).2 e hq

theorem getAccount_markSelectedAt_ne {p : Pool} {a n b : Nat} (hne : b ≠ a) :
    getAccount (markSelectedAt p a n) b = getAccount p b := by
  unfold markSelectedAt getAccount
  dsimp only
  rw [lookupAccount_updateAssoc_ne _ _ _ _ hne]

theorem getAccount_markSelectedAt_self (p : Pool) (a n : Nat) :
    getAccount (markSelectedAt p a n) a =
      { getAccount p a with queue := (getAccount p a).queue.map (markEntry n) } := by
  unfold markSelectedAt
  exact getAccount_updateAssoc_self _ _ _ _ _

theorem eq_of_nonce_eq {q : List PoolEntry}
    (hp : q.Pairwise (fun e₁ e₂ => e₁.tx.nonce < e₂.tx.nonce))
    {e₁ e₂ : PoolEntry} (h₁ : e₁ ∈ q) (h₂ : e₂ ∈ q)
    (h : e₁.tx.nonce = e₂.tx.nonce) : e₁ = e₂ := by
  induction q with
  | nil => cases h₁
  | cons hd tl ih =>
    rw [List.pairwise_cons] at hp
    rcases List.mem_cons.mp h₁ with rfl | h₁' <;>
      rcases List.mem_cons.mp h₂ with rfl | h₂'
    · rfl
    · exact absurd h (by have := hp.1 e₂ h₂'; omega)
    · exact absurd h (by have := hp.1 e₁ h₁'; omega)
    · exact ih hp.2 h₁' h₂'

theorem map_nonce_congr {f : PoolEntry → PoolEntry}
    (hf : ∀ e, (f e).tx = e.tx) (q : List PoolEntry) :
    (q.map f).map (fun e => e.tx.nonce) = q.map (fun e => e.tx.nonce) := by
  rw [List.map_map]
  apply List.map_congr_left
  intro x _
  simp [hf]

theorem WF_markSelectedAt {p : Pool} (hwf : p.WF) (a n : Nat) :
    (markSelectedAt p a n).WF := by
  constructor
  · unfold markSelectedAt
    exact keys_nodup_updateAssoc _ _ _ hwf.1
  · intro as hm
    unfold markSelectedAt at hm
    dsimp only at hm
    rcases mem_updateAssoc hm with rfl | hold
    · have hw := accountWF_getAccount hwf a
      constructor
      · show List.Pairwise _ ((getAccount p a).queue.map (markEntry n))
        rw [List.pairwise_map]
        exact hw.1.imp (fun {x y} h => by
          rw [markEntry_tx, markEntry_tx]; exact h)
      · intro e he
        rw [show ({ getAccount p a with
            queue := (getAccount p a).queue.map (markEntry n) } : AccountState).queue =
          (getAccount p a).queue.map (markEntry n) from rfl] at he
        rw [List.mem_map] at he
        obtain ⟨e₀, he₀, rfl⟩ := he
        rw [markEntry_tx]
        exact hw.2 e₀ he₀
    · exact hwf.2 as hold

theorem Consistent_markSelectedAt {p : Pool} (hc : p.Consistent) (a n : Nat) :
    (markSelectedAt p a n).Consistent := by
  intro as hm
  unfold markSelectedAt at hm
  dsimp only at hm
  rcases mem_updateAssoc hm with rfl | hold
  · have hc0 := accountConsistent_getAccount hc a
    intro e he hsel
    dsimp only at he ⊢
    rw [List.mem_map] at he
    obtain ⟨e₀, he₀, rfl⟩ := he
    rw [map_nonce_congr (markEntry_tx n)]
    have hcase : markEntry n e₀ = e₀ ∨ (markEntry n e₀).status = TxStatus.selected := by
      unfold markEntry
      split
      · exact Or.inr rfl
      · exact Or.inl rfl
    rcases hcase with heq0 | hsel0
    · rw [heq0] at hsel ⊢
      exact hc0 e₀ he₀ hsel
    · exact absurd hsel0 hsel
  · exact hc as hold

theorem markSelectedAt_mem_back {p : Pool} {a n b : Nat} {e : PoolEntry}
    (he : e ∈ (getAccount (markSelectedAt p a n) b).queue)
    (hsel : e.status ≠ TxStatus.selected) :
    e ∈ (getAccount p b).queue := by
  by_cases hab : b = a
  · subst hab
    rw [getAccount_markSelectedAt_self] at he
    dsimp only at he
    rw [List.mem_map] at he
    obtain ⟨e₀, he₀, rfl⟩ := he
    by_cases hn : e₀.tx.nonce = n
    · exact absurd (by simp [markEntry, hn]) hsel
    · have heq : markEntry n e₀ = e₀ := by simp [markEntry, hn]
      rw [heq]
      exact he₀
  · rw [getAccount_markSelectedAt_ne hab] at he
    exact he

theorem markSelectedAt_mem_fwd {p : Pool} (hwf : p.WF) {a : Nat} {eb : PoolEntry}
    (heb : eb ∈ (getAccount p a).queue) {b : Nat} {e : PoolEntry}
    (he : e ∈ (getAccount p b).queue) (hne : e.tx ≠ eb.tx) :
    e ∈ (getAccount (markSelectedAt p a eb.tx.nonce) b).queue := by
  by_cases hab : b = a
  · subst hab
    rw [getAccount_markSelectedAt_self]
    dsimp only
    rw [List.mem_map]
    by_cases hn : e.tx.nonce = eb.tx.nonce
    · exact absurd (congrArg PoolEntry.tx
        (eq_of_nonce_eq (accountWF_getAccount hwf b).1 he heb hn)) hne
    · exact ⟨e, he, by simp [markEntry, hn]⟩
  · rw [getAccount_markSelectedAt_ne hab]
    exact he

theorem popLoop_WF {fuel : Nat} : ∀ {p : Pool} {blocked : List Nat} {budget : Nat},
    p.WF → ((popLoop fuel p blocked budget).2).WF := by
  induction fuel with
  | zero => intro p blocked budget hwf; simpa [popLoop] using hwf
  | succ n ih =>
    intro p blocked budget hwf
    cases hb : bestHead p blocked with
    | none => rw [popLoop_succ_none hb]; exact hwf
    | some ae =>
      obtain ⟨a, e⟩ := ae
      by_cases hg : e.tx.gas ≤ budget
      · rw [popLoop_succ_fit hb hg]
        exact ih (WF_markSelectedAt hwf a e.tx.nonce)
      · rw [popLoop_succ_nofit hb hg]
        exact ih hwf

theorem popLoop_Consistent {fuel : Nat} :
    ∀ {p : Pool} {blocked : List Nat} {budget : Nat},
    p.Consistent → ((popLoop fuel p blocked budget).2).Consistent := by
  induction fuel with
  | zero => intro p blocked budget hc; simpa [popLoop] using hc
  | succ n ih =>
    intro p blocked budget hc
    cases hb : bestHead p blocked with
    | none => rw [popLoop_succ_none hb]; exact hc
    | some ae =>
      obtain ⟨a, e⟩ := ae
      by_cases hg : e.tx.gas ≤ budget
      · rw [popLoop_succ_fit hb hg]
        exact ih (Consistent_markSelectedAt hc a e.tx.nonce)
      · rw [popLoop_succ_nofit hb hg]
        exact ih hc

theorem popLoop_mem_back {fuel : Nat} :
    ∀ {p : Pool} {blocked : List Nat} {budget b : Nat} {e : PoolEntry},
    p.WF → e ∈ (getAccount (popLoop fuel p blocked budget).2 b).queue →
    e.status ≠ TxStatus.selected → e ∈ (getAccount p b).queue := by
  induction fuel with
  | zero =>
    intro p blocked budget b e _ he _
    simpa [popLoop] using he
  | succ n ih =>
    intro p blocked budget b e hwf he hsel
    cases hb : bestHead p blocked with
    | none =>
      rw [popLoop_succ_none hb] at he
      exact he
    | some ae =>
      obtain ⟨a, eb⟩ := ae
      by_cases hg : eb.tx.gas ≤ budget
      · rw [popLoop_succ_fit hb hg] at he
        exact markSelectedAt_mem_back
          (ih (WF_markSelectedAt hwf a eb.tx.nonce) he hsel) hsel
      · rw [popLoop_succ_nofit hb hg] at he
        exact ih hwf he hsel

theorem popLoop_mem_fwd {fuel : Nat} :
    ∀ {p : Pool} {blocked : List Nat} {budget b : Nat} {e : PoolEntry},
    p.WF → e ∈ (getAccount p b).queue →
    e.tx ∉ (popLoop fuel p blocked budget).1 →
    e ∈ (getAccount (popLoop fuel p blocked budget).2 b).queue := by
  induction fuel with
  | zero =>
    intro p blocked budget b e _ he _
    simpa [popLoop] using he
  | succ n ih =>
    intro p blocked budget b e hwf he hni
    cases hb : bestHead p blocked with
    | none =>
      rw [popLoop_succ_none hb]
      exact he
    | some ae =>
      obtain ⟨a, eb⟩ := ae
      by_cases hg : eb.tx.gas ≤ budget
      · rw [popLoop_succ_fit hb hg] at hni ⊢
        rw [List.mem_cons] at hni
        push_neg at hni
        obtain ⟨hwfspec⟩ := And.intro (bestHead_spec hwf hb) trivial
        exact ih (WF_markSelectedAt hwf a eb.tx.nonce)
          (markSelectedAt_mem_fwd hwf hwfspec.2.2.1 he hni.1) hni.2
      · rw [popLoop_succ_nofit hb hg] at hni ⊢
        exact ih hwf he hni

theorem popLoop_result_exec {fuel : Nat} :
    ∀ {p : Pool} {blocked : List Nat} {budget : Nat} {tx : Transaction},
    p.WF → tx ∈ (popLoop fuel p blocked budget).1 →
    ∃ e, e ∈ (getAccount p tx.sender).queue ∧ e.tx = tx ∧
      e.status = TxStatus.executable ∧ tx.sender ∉ blocked := by
  induction fuel with
  | zero =>
    intro p blocked budget tx _ htx
    simp [popLoop] at htx
  | succ n ih =>
    intro p blocked budget tx hwf htx
    cases hb : bestHead p blocked with
    | none =>
      rw [popLoop_succ_none hb] at htx
      cases htx
    | some ae =>
      obtain ⟨a, eb⟩ := ae
      by_cases hg : eb.tx.gas ≤ budget
      · rw [popLoop_succ_fit hb hg] at htx
        obtain ⟨hnb, _, hq, hex, hsender⟩ := bestHead_spec hwf hb
        rcases List.mem_cons.mp htx with rfl | hrest
        · exact ⟨eb, by rw [hsender]; exact hq, rfl, hex, by rw [hsender]; exact hnb⟩
        · obtain ⟨e₁, he₁, htxe, hex₁, hnb₁⟩ :=
            ih (WF_markSelectedAt hwf a eb.tx.nonce) hrest
          refine ⟨e₁, ?_, htxe, hex₁, hnb₁⟩
          exact markSelectedAt_mem_back he₁ (by rw [hex₁]; intro hcon; cases hcon)
      · rw [popLoop_succ_nofit hb hg] at htx
        obtain ⟨e₁, he₁, htxe, hex₁, hnb₁⟩ := ih hwf htx
        exact ⟨e₁, he₁, htxe, hex₁, fun hcon =>
          hnb₁ (List.mem_cons_of_mem _ hcon)⟩

theorem find?_exec_after_mark {q : List PoolEntry}
    (hp : q.Pairwise (fun e₁ e₂ => e₁.tx.nonce < e₂.tx.nonce))
    {e : PoolEntry}
    (hf : q.find? (fun x => x.status == TxStatus.executable) = some e) :
    (q.map (markEntry e.tx.nonce)).find?
        (fun x => x.status == TxStatus.executable) = none ∨
    ∃ e', (q.map (markEntry e.tx.nonce)).find?
        (fun x => x.status == TxStatus.executable) = some e' ∧
      e.tx.nonce < e'.tx.nonce := by
  induction q with
  | nil => cases hf
  | cons hd tl ih =>
    rw [List.pairwise_cons] at hp
    rw [List.find?_cons] at hf
    by_cases hhd : hd.status = TxStatus.executable
    · have hb : (hd.status == TxStatus.executable) = true := by simp [hhd]
      simp only [hb] at hf
      rw [Option.some.injEq] at hf
      subst hf
      rw [List.map_cons, List.find?_cons]
      have hb2 : ((markEntry hd.tx.nonce hd).status == TxStatus.executable) = false := by
        simp [markEntry]
      simp only [hb2]
      cases hr : (tl.map (markEntry hd.tx.nonce)).find?
          (fun x => x.status == TxStatus.executable) with
      | none => exact Or.inl rfl
      | some e' =>
        right
        refine ⟨e', rfl, ?_⟩
        have hmem := List.mem_of_find?_eq_some hr
        have hpred := List.find?_some hr
        rw [List.mem_map] at hmem
        obtain ⟨e₀, he₀, rfl⟩ := hmem
        by_cases hn : e₀.tx.nonce = hd.tx.nonce
        · exfalso
          simp [markEntry, hn] at hpred
        · have hkeep : markEntry hd.tx.nonce e₀ = e₀ := by simp [markEntry, hn]
          rw [hkeep]
          exact hp.1 e₀ he₀
    · have hb : (hd.status == TxStatus.executable) = false := by simp [hhd]
      simp only [hb] at hf
      have he_tl := List.mem_of_find?_eq_some hf
      have hdn : ¬ hd.tx.nonce = e.tx.nonce := by
        have := hp.1 e he_tl
        omega
      rw [List.map_cons, List.find?_cons]
      have hm1 : markEntry e.tx.nonce hd = hd := by simp [markEntry, hdn]
      simp only [hm1, hb]
      exact ih hp.2 hf

theorem headEntry_after_mark {st : AccountState}
    (hp : st.queue.Pairwise (fun e₁ e₂ => e₁.tx.nonce < e₂.tx.nonce))
    {e : PoolEntry} (hh : headEntry st = some e) :
    headEntry { st with queue := st.queue.map (markEntry e.tx.nonce) } = none ∨
    ∃ e', headEntry { st with queue := st.queue.map (markEntry e.tx.nonce) } =
        some e' ∧ e.tx.nonce < e'.tx.nonce := by
  unfold headEntry at hh ⊢
  exact find?_exec_after_mark hp hh

theorem popLoop_no_head {fuel : Nat} :
    ∀ {p : Pool} {blocked : List Nat} {budget a : Nat} {tx : Transaction},
    p.WF → headEntry (getAccount p a) = none →
    tx ∈ (popLoop fuel p blocked budget).1 → tx.sender ≠ a := by
  induction fuel with
  | zero =>
    intro p blocked budget a tx _ _ htx
    simp [popLoop] at htx
  | succ n ih =>
    intro p blocked budget a tx hwf hh htx
    cases hb : bestHead p blocked with
    | none =>
      rw [popLoop_succ_none hb] at htx
      cases htx
    | some ae =>
      obtain ⟨b, eb⟩ := ae
      have hspec := bestHead_spec hwf hb
      have hba : b ≠ a := by
        intro hcon
        rw [hcon] at hspec
        rw [hh] at hspec
        cases hspec.2.1
      by_cases hg : eb.tx.gas ≤ budget
      · rw [popLoop_succ_fit hb hg] at htx
        rcases List.mem_cons.mp htx with rfl | hrest
        · rw [hspec.2.2.2.2]
          exact hba
        · have hh₁ : headEntry (getAccount (markSelectedAt p b eb.tx.nonce) a) = none := by
            rw [getAccount_markSelectedAt_ne (fun hcon => hba hcon.symm)]
            exact hh
          exact ih (WF_markSelectedAt hwf b eb.tx.nonce) hh₁ hrest
      · rw [popLoop_succ_nofit hb hg] at htx
        exact ih hwf hh htx

theorem popLoop_nonce_lower_bound {fuel : Nat} :
    ∀ {p : Pool} {blocked : List Nat} {budget a : Nat} {e : PoolEntry}
      {tx : Transaction},
    p.WF → headEntry (getAccount p a) = some e →
    tx ∈ (popLoop fuel p blocked budget).1 → tx.sender = a →
    e.tx.nonce ≤ tx.nonce := by
  induction fuel with
  | zero =>
    intro p blocked budget a e tx _ _ htx
    simp [popLoop] at htx
  | succ n ih =>
    intro p blocked budget a e tx hwf hh htx htxa
    cases hb : bestHead p blocked with
    | none =>
      rw [popLoop_succ_none hb] at htx
      cases htx
    | some ae =>
      obtain ⟨b, eb⟩ := ae
      have hspec := bestHead_spec hwf hb
      by_cases hg : eb.tx.gas ≤ budget
      · rw [popLoop_succ_fit hb hg] at htx
        rcases List.mem_cons.mp htx with rfl | hrest
        · have hba : b = a := by rw [← hspec.2.2.2.2]; exact htxa
          subst hba
          rw [hh] at hspec
          have : e = eb := by
            have := hspec.2.1
            rw [Option.some.injEq] at this
            exact this
          rw [this]
        · by_cases hba : b = a
          · subst hba
            rw [hh] at hspec
            have heeb : e = eb := by
              have := hspec.2.1
              rw [Option.some.injEq] at this
              exact this
            subst heeb
            have hpair := (accountWF_getAccount hwf b).1
            rcases headEntry_after_mark hpair hh with hnone | ⟨e', hsome, hlt⟩
            · have hh₁ : headEntry (getAccount (markSelectedAt p b e.tx.nonce) b) = none := by
                rw [getAccount_markSelectedAt_self]
                exact hnone
              exact absurd htxa
                (popLoop_no_head (WF_markSelectedAt hwf b e.tx.nonce) hh₁ hrest)
            · have hh₁ : headEntry (getAccount (markSelectedAt p b e.tx.nonce) b) =
                  some e' := by
                rw [getAccount_markSelectedAt_self]
                exact hsome
              have := ih (WF_markSelectedAt hwf b e.tx.nonce) hh₁ hrest htxa
              omega
          · have hh₁ : headEntry (getAccount (markSelectedAt p b eb.tx.nonce) a) =
                some e := by
              rw [getAccount_markSelectedAt_ne (fun hcon => hba hcon.symm)]
              exact hh
            exact ih (WF_markSelectedAt hwf b eb.tx.nonce) hh₁ hrest htxa
      · rw [popLoop_succ_nofit hb hg] at htx
        exact ih hwf hh htx htxa

theorem popLoop_chain {fuel : Nat} :
    ∀ {p : Pool} {blocked : List Nat} {budget a : Nat},
    p.WF →
    List.Chain' (· < ·) (((popLoop fuel p blocked budget).1.filter
      (fun tx => tx.sender == a)).map Transaction.nonce) := by
  induction fuel with
  | zero =>
    intro p blocked budget a _
    simp [popLoop]
  | succ n ih =>
    intro p blocked budget a hwf
    cases hb : bestHead p blocked with
    | none =>
      rw [popLoop_succ_none hb]
      simp
    | some ae =>
      obtain ⟨b, eb⟩ := ae
      have hspec := bestHead_spec hwf hb
      by_cases hg : eb.tx.gas ≤ budget
      · rw [popLoop_succ_fit hb hg]
        dsimp only
        rw [List.filter_cons]
        by_cases hsend : (eb.tx.sender == a) = true
        · have hsa : eb.tx.sender = a := by simpa using hsend
          have hba : b = a := by rw [← hspec.2.2.2.2]; exact hsa
          subst hba
          simp only [hsend, if_true, List.map_cons]
          refine List.chain'_cons'.mpr ⟨?_, ih (WF_markSelectedAt hwf b eb.tx.nonce)⟩
          intro y hy
          cases hl : ((popLoop n (markSelectedAt p b eb.tx.nonce) blocked
              (budget - eb.tx.gas)).1.filter (fun tx => tx.sender == b)) with
          | nil =>
            rw [hl] at hy
            cases hy
          | cons tx₀ l' =>
            rw [hl] at hy
            simp only [List.map_cons, List.head?_cons, Option.mem_def,
              Option.some.injEq] at hy
            subst hy
            have htx₀mem : tx₀ ∈ (popLoop n (markSelectedAt p b eb.tx.nonce) blocked
                (budget - eb.tx.gas)).1 ∧ (tx₀.sender == b) = true := by
              have : tx₀ ∈ ((popLoop n (markSelectedAt p b eb.tx.nonce) blocked
                  (budget - eb.tx.gas)).1.filter (fun tx => tx.sender == b)) := by
                rw [hl]
                exact List.mem_cons_self _ _
              exact List.mem_filter.mp this
            have hsb : tx₀.sender = b := by simpa using htx₀mem.2
            have hpair := (accountWF_getAccount hwf b).1
            have hhead : headEntry (getAccount p b) = some eb := hspec.2.1
            rcases headEntry_after_mark hpair hhead with hnone | ⟨e', hsome, hlt⟩
            · have hh₁ : headEntry (getAccount (markSelectedAt p b eb.tx.nonce) b) =
                  none := by
                rw [getAccount_markSelectedAt_self]
                exact hnone
              exact absurd hsb
                (popLoop_no_head (WF_markSelectedAt hwf b eb.tx.nonce) hh₁ htx₀mem.1)
            · have hh₁ : headEntry (getAccount (markSelectedAt p b eb.tx.nonce) b) =
                  some e' := by
                rw [getAccount_markSelectedAt_self]
                exact hsome
              have := popLoop_nonce_lower_bound (WF_markSelectedAt hwf b eb.tx.nonce)
                hh₁ htx₀mem.1 hsb
              omega
        · simp only [Bool.not_eq_true] at hsend
          simp only [hsend]
          exact ih (WF_markSelectedAt hwf b eb.tx.nonce)
      · rw [popLoop_succ_nofit hb hg]
        exact ih hwf

theorem popLoop_head_blocking {fuel : Nat} :
    ∀ {p : Pool} {blocked : List Nat} {budget a : Nat} {e : PoolEntry},
    p.WF → headEntry (getAccount p a) = some e →
    e.tx ∉ (popLoop fuel p blocked budget).1 →
    ∀ tx ∈ (popLoop fuel p blocked budget).1, tx.sender ≠ a := by
  induction fuel with
  | zero =>
    intro p blocked budget a e _ _ _ tx htx
    simp [popLoop] at htx
  | succ n ih =>
    intro p blocked budget a e hwf hh hni tx htx
    cases hb : bestHead p blocked with
    | none =>
      rw [popLoop_succ_none hb] at htx
      cases htx
    | some ae =>
      obtain ⟨b, eb⟩ := ae
      have hspec := bestHead_spec hwf hb
      by_cases hg : eb.tx.gas ≤ budget
      · rw [popLoop_succ_fit hb hg] at hni htx
        rw [List.mem_cons] at hni
        push_neg at hni
        by_cases hba : b = a
        · subst hba
          rw [hh] at hspec
          have : e = eb := by
            have := hspec.2.1
            rw [Option.some.injEq] at this
            exact this
          exact absurd (congrArg Transaction.hash (congrArg PoolEntry.tx this))
            (by intro _; exact hni.1 (congrArg PoolEntry.tx this))
        · rcases List.mem_cons.mp htx with rfl | hrest
          · rw [hspec.2.2.2.2]
            exact hba
          · have hh₁ : headEntry (getAccount (markSelectedAt p b eb.tx.nonce) a) =
                some e := by
              rw [getAccount_markSelectedAt_ne (fun hcon => hba hcon.symm)]
              exact hh
            exact ih (WF_markSelectedAt hwf b eb.tx.nonce) hh₁ hni.2 tx hrest
      · rw [popLoop_succ_nofit hb hg] at hni htx
        by_cases hba : b = a
        · subst hba
          obtain ⟨_, _, _, _, hnb⟩ := popLoop_result_exec hwf htx
          intro hcon
          rw [hcon] at hnb
          exact hnb (List.mem_cons_self _ _)
        · exact ih hwf hh hni tx htx

theorem popLoop_new_bound {fuel : Nat} :
    ∀ {p : Pool} {blocked : List Nat} {budget : Nat} {tx : Transaction}
      {e : PoolEntry},
    p.WF → p.Consistent →
    tx ∈ (popLoop fuel p blocked budget).1 →
    e ∈ (getAccount (popLoop fuel p blocked budget).2 tx.sender).queue →
    e.status ≠ TxStatus.selected → tx.nonce < e.tx.nonce := by
  induction fuel with
  | zero =>
    intro p blocked budget tx e _ _ htx
    simp [popLoop] at htx
  | succ n ih =>
    intro p blocked budget tx e hwf hc htx he hsel
    cases hb : bestHead p blocked with
    | none =>
      rw [popLoop_succ_none hb] at htx
      cases htx
    | some ae =>
      obtain ⟨b, eb⟩ := ae
      have hspec := bestHead_spec hwf hb
      by_cases hg : eb.tx.gas ≤ budget
      · rw [popLoop_succ_fit hb hg] at htx he
        have hwf₁ := WF_markSelectedAt hwf b eb.tx.nonce
        have hc₁ := Consistent_markSelectedAt hc b eb.tx.nonce
        rcases List.mem_cons.mp htx with rfl | hrest
        · have he₁ := popLoop_mem_back hwf₁ he hsel
          rw [hspec.2.2.2.2] at he₁
          rw [getAccount_markSelectedAt_self] at he₁
          dsimp only at he₁
          rw [List.mem_map] at he₁
          obtain ⟨e₀, he₀, rfl⟩ := he₁
          by_cases hn : e₀.tx.nonce = eb.tx.nonce
          · exact absurd (by simp [markEntry, hn]) hsel
          · have hkeep : markEntry eb.tx.nonce e₀ = e₀ := by simp [markEntry, hn]
            rw [hkeep] at hsel ⊢
            have hq := (accountWF_getAccount hwf b).1
            have hcons := accountConsistent_getAccount hc b
            have hmin := find?_min_nonce hq hspec.2.1 e₀ he₀
            cases hst : e₀.status with
            | executable =>
              have := hmin (by simp [hst])
              omega
            | queued =>
              have h1 := (hcons eb hspec.2.2.1
                (by rw [hspec.2.2.2.1]; intro hcon; cases hcon)).mp hspec.2.2.2.1
              have h2 : ¬ e₀.tx.nonce < frontierFrom (getAccount p b).nextNonce
                  ((getAccount p b).queue.map (fun e' => e'.tx.nonce)) := by
                intro hcon
                have := (hcons e₀ he₀ (by rw [hst]; intro hcon2; cases hcon2)).mpr hcon
                rw [hst] at this
                cases this
              omega
            | selected => exact absurd hst hsel
        · exact ih hwf₁ hc₁ hrest he hsel
      · rw [popLoop_succ_nofit hb hg] at htx he
        exact ih hwf hc htx he hsel

/-! ### Preservation through MarkIncluded -/

theorem accountConsistent_promoteAccount (st : AccountState) :
    accountConsistent (promoteAccount st) := by
  intro e he hsel
  unfold promoteAccount at he ⊢
  dsimp only at he ⊢
  rw [map_nonce_congr (recomputeStatus_tx _)]
  rw [List.mem_map] at he
  obtain ⟨e₀, he₀, rfl⟩ := he
  by_cases hsel₀ : e₀.status = TxStatus.selected
  · have hkeep : recomputeStatus
        (frontierFrom st.nextNonce (st.queue.map (fun e => e.tx.nonce))) e₀ = e₀ := by
      simp [recomputeStatus, hsel₀]
    rw [hkeep] at hsel
    exact absurd hsel₀ hsel
  · unfold recomputeStatus at hsel ⊢
    rw [if_neg hsel₀] at hsel ⊢
    by_cases hfr : e₀.tx.nonce <
        frontierFrom st.nextNonce (st.queue.map (fun e => e.tx.nonce))
    · simp [hfr]
    · simp [hfr]

theorem getAccount_update_ne {p : Pool} {a b : Nat} (hne : b ≠ a)
    (st : AccountState) (sq : Nat) (inc : List IncludedRecord) :
    getAccount ⟨updateAssoc p.accounts a st, sq, inc⟩ b = getAccount p b := by
  unfold getAccount
  dsimp only
  rw [lookupAccount_updateAssoc_ne _ _ _ _ hne]

theorem promoteAccount_mem_back {st : AccountState} {e : PoolEntry}
    (he : e ∈ (promoteAccount st).queue) :
    ∃ e₀ ∈ st.queue, e.tx = e₀.tx ∧
      (e₀.status = TxStatus.selected → e.status = TxStatus.selected) := by
  unfold promoteAccount at he
  dsimp only at he
  rw [List.mem_map] at he
  obtain ⟨e₀, he₀, rfl⟩ := he
  refine ⟨e₀, he₀, recomputeStatus_tx _ _, ?_⟩
  intro hsel
  simp [recomputeStatus, hsel]

theorem WF_markIncludedOne {p : Pool} (hwf : p.WF) (h : Nat) (m : BlockMeta) :
    (markIncludedOne p h m).WF := by
  unfold markIncludedOne
  cases hf : findByHash p.accounts h with
  | none => exact hwf
  | some ae =>
    obtain ⟨a, e⟩ := ae
    constructor
    · exact keys_nodup_updateAssoc _ _ _ hwf.1
    · intro as hm'
      dsimp only at hm'
      rcases mem_updateAssoc hm' with rfl | hold
      · have hw := accountWF_getAccount hwf a
        constructor
        · show List.Pairwise _ (promoteAccount _).queue
          unfold promoteAccount
          dsimp only
          rw [List.pairwise_map]
          exact (List.Pairwise.sublist (List.filter_sublist _) hw.1).imp
            (fun {x y} hxy => by
              rw [recomputeStatus_tx, recomputeStatus_tx]; exact hxy)
        · intro e' he'
          obtain ⟨e₀, he₀, htx⟩ := promoteAccount_tx_mem he'
          rw [htx]
          exact hw.2 e₀ (List.mem_of_mem_filter he₀)
      · exact hwf.2 as hold

theorem Consistent_markIncludedOne {p : Pool} (hc : p.Consistent)
    (h : Nat) (m : BlockMeta) : (markIncludedOne p h m).Consistent := by
  unfold markIncludedOne
  cases hf : findByHash p.accounts h with
  | none => exact hc
  | some ae =>
    obtain ⟨a, e⟩ := ae
    intro as hm'
    dsimp only at hm'
    rcases mem_updateAssoc hm' with rfl | hold
    · exact accountConsistent_promoteAccount _
    · exact hc as hold

theorem markIncludedOne_mem_back {p : Pool} {h : Nat} {m : BlockMeta}
    {b : Nat} {e : PoolEntry}
    (he : e ∈ (getAccount (markIncludedOne p h m) b).queue)
    (hsel : e.status ≠ TxStatus.selected) :
    ∃ e₀ ∈ (getAccount p b).queue, e₀.tx = e.tx ∧
      e₀.status ≠ TxStatus.selected := by
  unfold markIncludedOne at he
  cases hf : findByHash p.accounts h with
  | none =>
    rw [hf] at he
    exact ⟨e, he, rfl, hsel⟩
  | some ae =>
    obtain ⟨a, e'⟩ := ae
    rw [hf] at he
    by_cases hab : b = a
    · subst hab
      rw [getAccount_updateAssoc_self] at he
      obtain ⟨e₀, he₀, htx, himp⟩ := promoteAccount_mem_back he
      exact ⟨e₀, List.mem_of_mem_filter he₀, htx.symm,
        fun hcon => hsel (himp hcon)⟩
    · rw [getAccount_update_ne hab] at he
      exact ⟨e, he, rfl, hsel⟩

theorem markIncluded_cons (p : Pool) (hd : Nat × BlockMeta)
    (tl : List (Nat × BlockMeta)) :
    p.markIncluded (hd :: tl) = (markIncludedOne p hd.1 hd.2).markIncluded tl := rfl

theorem WF_markIncluded {hs : List (Nat × BlockMeta)} :
    ∀ {p : Pool}, p.WF → (p.markIncluded hs).WF := by
  induction hs with
  | nil => intro p hwf; exact hwf
  | cons hd tl ih =>
    intro p hwf
    rw [markIncluded_cons]
    exact ih (WF_markIncludedOne hwf hd.1 hd.2)

theorem Consistent_markIncluded {hs : List (Nat × BlockMeta)} :
    ∀ {p : Pool}, p.Consistent → (p.markIncluded hs).Consistent := by
  induction hs with
  | nil => intro p hc; exact hc
  | cons hd tl ih =>
    intro p hc
    rw [markIncluded_cons]
    exact ih (Consistent_markIncludedOne hc hd.1 hd.2)

theorem markIncluded_mem_back {hs : List (Nat × BlockMeta)} :
    ∀ {p : Pool} {b : Nat} {e : PoolEntry},
    e ∈ (getAccount (p.markIncluded hs) b).queue →
    e.status ≠ TxStatus.selected →
    ∃ e₀ ∈ (getAccount p b).queue, e₀.tx = e.tx ∧
      e₀.status ≠ TxStatus.selected := by
  induction hs with
  | nil => intro p b e he hsel; exact ⟨e, he, rfl, hsel⟩
  | cons hd tl ih =>
    intro p b e he hsel
    rw [markIncluded_cons] at he
    obtain ⟨e₁, he₁, htx₁, hsel₁⟩ := ih he hsel
    obtain ⟨e₀, he₀, htx₀, hsel₀⟩ := markIncludedOne_mem_back he₁ hsel₁
    exact ⟨e₀, he₀, htx₀.trans htx₁, hsel₀⟩

/-! ### The nonce-order trace property -/

theorem getLast?_mem_list {l : List Nat} {a : Nat} (h : l.getLast? = some a) :
    a ∈ l := by
  obtain ⟨hl, rfl⟩ := List.mem_getLast?_eq_getLast (l := l) (x := a) (by simpa using h)
  exact List.getLast_mem hl

theorem head?_mem_list {l : List Nat} {a : Nat} (h : l.head? = some a) :
    a ∈ l := by
  cases l with
  | nil => cases h
  | cons x xs =>
    rw [List.head?_cons, Option.some.injEq] at h
    subst h
    exact List.mem_cons_self _ _

theorem mem_filter_nonce {ret : List Transaction} {a x : Nat}
    (hx : x ∈ (ret.filter (fun tx => tx.sender == a)).map Transaction.nonce) :
    ∃ tx ∈ ret, tx.sender = a ∧ tx.nonce = x := by
  rw [List.mem_map] at hx
  obtain ⟨tx, htx, rfl⟩ := hx
  rw [List.mem_filter] at htx
  exact ⟨tx, htx.1, by simpa using htx.2, rfl⟩

theorem lookupAccount_map_demote (l : List (Nat × AccountState))
    (hs : List Nat) (a : Nat) :
    lookupAccount (l.map (fun as => (as.1, demoteAccount hs as.2))) a =
      (lookupAccount l a).map (demoteAccount hs) := by
  induction l with
  | nil => rfl
  | cons hd tl ih =>
    obtain ⟨b, s⟩ := hd
    by_cases hb : b = a <;> simp [lookupAccount, hb, ih]

theorem runOps_chain_aux :
    ∀ (ops : List PoolOp) (p : Pool) (ret : List Transaction),
    (∀ op ∈ ops, op.isDemote = false) → p.WF → p.Consistent →
    (∀ tx ∈ ret, ∀ e ∈ (getAccount p tx.sender).queue,
      e.status ≠ TxStatus.selected → tx.nonce < e.tx.nonce) →
    (∀ a, List.Chain' (· < ·)
      ((ret.filter (fun tx => tx.sender == a)).map Transaction.nonce)) →
    ∀ a, List.Chain' (· < ·)
      (((ret ++ (runOps p ops).1).filter
        (fun tx => tx.sender == a)).map Transaction.nonce) := by
  intro ops
  induction ops with
  | nil =>
    intro p ret _ _ _ _ hchain a
    simpa [runOps] using hchain a
  | cons op ops ih =>
    intro p ret hnd hwf hc hfb hchain a
    have hnd' : ∀ op' ∈ ops, op'.isDemote = false :=
      fun op' hop => hnd op' (List.mem_cons_of_mem _ hop)
    cases op with
    | pop g =>
      have hrw : runOps p (PoolOp.pop g :: ops) =
          ((p.pop g).1 ++ (runOps (p.pop g).2 ops).1,
            (runOps (p.pop g).2 ops).2) := rfl
      rw [hrw]
      have hwf' : ((p.pop g).2).WF := popLoop_WF hwf
      have hc' : ((p.pop g).2).Consistent := popLoop_Consistent hc
      have hfb' : ∀ tx ∈ ret ++ (p.pop g).1,
          ∀ e ∈ (getAccount (p.pop g).2 tx.sender).queue,
          e.status ≠ TxStatus.selected → tx.nonce < e.tx.nonce := by
        intro tx htx e he hsel
        rcases List.mem_append.mp htx with hr | hp1
        · exact hfb tx hr e (popLoop_mem_back hwf he hsel) hsel
        · exact popLoop_new_bound hwf hc hp1 he hsel
      have hchain' : ∀ a', List.Chain' (· < ·)
          (((ret ++ (p.pop g).1).filter
            (fun tx => tx.sender == a')).map Transaction.nonce) := by
        intro a'
        rw [List.filter_append, List.map_append]
        apply List.chain'_append.mpr
        refine ⟨hchain a', popLoop_chain hwf, ?_⟩
        intro x hx y hy
        obtain ⟨tx₁, htx₁, hs₁, hn₁⟩ :=
          mem_filter_nonce (getLast?_mem_list (by simpa using hx))
        obtain ⟨tx₂, htx₂, hs₂, hn₂⟩ :=
          mem_filter_nonce (head?_mem_list (by simpa using hy))
        obtain ⟨e₂, he₂, htxe₂, hex₂, _⟩ := popLoop_result_exec hwf htx₂
        have hse : tx₂.sender = tx₁.sender := by rw [hs₂, hs₁]
        rw [hse] at he₂
        have := hfb tx₁ htx₁ e₂ he₂ (by rw [hex₂]; intro hcon; cases hcon)
        rw [htxe₂] at this
        omega
      have := ih (p.pop g).2 (ret ++ (p.pop g).1) hnd' hwf' hc' hfb' hchain' a
      dsimp only
      rw [← List.append_assoc]
      exact this
    | markIncluded hs =>
      have hrw : runOps p (PoolOp.markIncluded hs :: ops) =
          runOps (p.markIncluded hs) ops := rfl
      rw [hrw]
      have hfb' : ∀ tx ∈ ret, ∀ e ∈ (getAccount (p.markIncluded hs) tx.sender).queue,
          e.status ≠ TxStatus.selected → tx.nonce < e.tx.nonce := by
        intro tx htx e he hsel
        obtain ⟨e₀, he₀, htx₀, hsel₀⟩ := markIncluded_mem_back he hsel
        have := hfb tx htx e₀ he₀ hsel₀
        rw [htx₀] at this
        exact this
      exact ih (p.markIncluded hs) ret hnd' (WF_markIncluded hwf)
        (Consistent_markIncluded hc) hfb' hchain a
    | demote hs =>
      exact absurd (hnd _ (List.mem_cons_self _ _)) (by simp [PoolOp.isDemote])

/-- C3 (amended): over any sequence of Pop and MarkIncluded operations (no
Demote), the concatenated Pop results list every account's transactions in
strictly increasing nonce order, and within one Pop a head that was not
selected blocks every transaction of its account for that round. -/
theorem pop_nonce_order (p : Pool) (ops : List PoolOp)
    (hnd : ∀ op ∈ ops, op.isDemote = false)
    (hwf : p.WF) (hc : p.Consistent) :
    (∀ a, List.Chain' (· < ·) (((runOps p ops).1.filter
      (fun tx => tx.sender == a)).map Transaction.nonce)) ∧
    (∀ (maxGas a : Nat) (e : PoolEntry), headEntry (getAccount p a) = some e →
      e.tx ∉ (p.pop maxGas).1 →
      ∀ tx ∈ (p.pop maxGas).1, tx.sender ≠ a) := by
  constructor
  · intro a
    have := runOps_chain_aux ops p [] hnd hwf hc
      (by intro tx htx; cases htx) (by intro a'; simp) a
    simpa using this
  · intro maxGas a e hh hni tx htx
    exact popLoop_head_blocking hwf hh hni tx htx

/-- Counterexample to C3 as stated: with a Demote interleaved between two
Pops, the same transaction is returned twice, so the concatenated nonces of
its account are not strictly increasing. -/
theorem pop_nonce_order_demote_counterexample :
    ((runOps pC3 [PoolOp.pop 100000, PoolOp.demote [txB0.hash],
        PoolOp.pop 100000]).1.filter
      (fun tx => tx.sender == 7)).map Transaction.nonce = [0, 0] ∧
    ¬ List.Chain' (· < ·) ([0, 0] : List Nat) := by
  constructor
  · decide
  · intro hcon
    rw [List.chain'_cons] at hcon
    omega

/-- Witness for C3 (amended) at a concrete input: the deferral scenario run
as a Pop, MarkIncluded, Pop sequence. -/
theorem pop_nonce_order_witness :
    ((∀ op ∈ opsC3w, op.isDemote = false) ∧ pC1.WF ∧ pC1.Consistent) ∧
    (∀ a, List.Chain' (· < ·) (((runOps pC1 opsC3w).1.filter
      (fun tx => tx.sender == a)).map Transaction.nonce)) :=
  ⟨⟨by decide, by decide, by decide⟩,
    (pop_nonce_order pC1 opsC3w (by decide) (by decide) (by decide)).1⟩

/-- C4: no-loss and frame: an entry whose transaction a Pop did not return
is still present afterwards, completely unchanged (same transaction, same
sequence number, same status); Demote only rewrites status flags (the pool
with statuses erased is identical), and an entry whose hash is not named is
untouched entirely. -/
theorem pop_skip_no_loss :
    (∀ (p : Pool) (maxGas a : Nat) (e : PoolEntry), p.WF →
      e ∈ (getAccount p a).queue → e.tx ∉ (p.pop maxGas).1 →
      e ∈ (getAccount (p.pop maxGas).2 a).queue) ∧
    (∀ (p : Pool) (hs : List Nat), dataView (p.demote hs) = dataView p) ∧
    (∀ (p : Pool) (hs : List Nat) (a : Nat) (e : PoolEntry),
      e ∈ (getAccount p a).queue → e.tx.hash ∉ hs →
      e ∈ (getAccount (p.demote hs) a).queue) := by
  refine ⟨?_, ?_, ?_⟩
  · intro p maxGas a e hwf he hni
    exact popLoop_mem_fwd hwf he hni
  · intro p hs
    unfold dataView Pool.demote
    dsimp only
    rw [Prod.mk.injEq]
    refine ⟨?_, rfl⟩
    rw [List.map_map]
    apply List.map_congr_left
    intro as _
    rw [Function.comp_apply]
    dsimp only [demoteAccount]
    rw [Prod.mk.injEq]
    refine ⟨rfl, ?_⟩
    rw [Prod.mk.injEq]
    refine ⟨rfl, ?_⟩
    rw [List.map_map]
    apply List.map_congr_left
    intro e _
    rw [Function.comp_apply]
    unfold entryData
    rw [demoteEntry_tx, demoteEntry_seq]
  · intro p hs a e he hni
    unfold Pool.demote getAccount
    dsimp only
    rw [lookupAccount_map_demote]
    unfold getAccount at he
    cases hl : lookupAccount p.accounts a with
    | none =>
      rw [hl] at he
      cases he
    | some st =>
      rw [hl] at he
      show e ∈ (demoteAccount hs st).queue
      unfold demoteAccount
      dsimp only
      rw [List.mem_map]
      refine ⟨e, he, ?_⟩
      have : ¬ (e.tx.hash ∈ hs ∧ e.status = TxStatus.selected) :=
        fun hcon => hni hcon.1
      simp [demoteEntry, this]

/-- Witness for C4 at a concrete input: the deferral scenario's skipped
nonce-2 entry survives the Pop unchanged, and a Demote naming nothing (and
one naming a foreign hash) leaves the data view intact. -/
theorem pop_skip_no_loss_witness :
    (pC1.WF ∧ (⟨txA2, 2, TxStatus.executable⟩ : PoolEntry) ∈ (getAccount pC1 1).queue ∧
      txA2 ∉ (pC1.pop 52500).1) ∧
    ((⟨txA2, 2, TxStatus.executable⟩ : PoolEntry) ∈
        (getAccount (pC1.pop 52500).2 1).queue ∧
      dataView (pC1.demote [txB0.hash]) = dataView pC1) :=
  ⟨⟨by decide, by decide, by decide⟩,
    ⟨pop_skip_no_loss.1 pC1 52500 1 ⟨txA2, 2, TxStatus.executable⟩ (by decide)
        (by decide) (by decide),
      pop_skip_no_loss.2.1 pC1 [txB0.hash]⟩⟩

/-! ### The stress-addition property -/

theorem txC8_inj {a n b m : Nat} (h : txC8 a n = txC8 b m) : a = b ∧ n = m := by
  unfold txC8 at h
  rw [Transaction.mk.injEq] at h
  exact ⟨h.1, h.2.1⟩

theorem lookupAccount_some_of_mem_keys {l : List (Nat × AccountState)} {a : Nat}
    (h : a ∈ l.map Prod.fst) : ∃ st, lookupAccount l a = some st := by
  induction l with
  | nil => simp at h
  | cons hd tl ih =>
    obtain ⟨b, s⟩ := hd
    by_cases hb : b = a
    · exact ⟨s, by simp [lookupAccount, hb]⟩
    · have hmem : a ∈ tl.map Prod.fst := by
        simp at h
        rcases h with hcon | ⟨x, hx⟩
        · exact absurd hcon.symm hb
        · simp
          exact ⟨x, hx⟩
      obtain ⟨st, hst⟩ := ih hmem
      exact ⟨st, by simpa [lookupAccount, hb] using hst⟩

theorem keys_updateAssoc_super {l : List (Nat × AccountState)} {x a : Nat}
    {st : AccountState} (h : x ∈ l.map Prod.fst) :
    x ∈ (updateAssoc l a st).map Prod.fst := by
  induction l with
  | nil => simp at h
  | cons hd tl ih =>
    obtain ⟨b, s⟩ := hd
    by_cases hb : b = a
    · subst hb
      simpa [updateAssoc] using h
    · simp [updateAssoc, hb] at h ⊢
      rcases h with h | h
      · exact Or.inl h
      · exact Or.inr (by simpa using ih (by simpa using h))

theorem mem_keys_updateAssoc_self (l : List (Nat × AccountState)) (a : Nat)
    (st : AccountState) : a ∈ (updateAssoc l a st).map Prod.fst := by
  induction l with
  | nil => simp [updateAssoc]
  | cons hd tl ih =>
    obtain ⟨b, s⟩ := hd
    by_cases hb : b = a
    · simp [updateAssoc, hb]
    · simp [updateAssoc, hb]
      exact Or.inr (by simpa using ih)

theorem insertByNonce_append {e : PoolEntry} : ∀ {q : List PoolEntry},
    (∀ e' ∈ q, ¬ e.tx.nonce < e'.tx.nonce) → insertByNonce e q = q ++ [e] := by
  intro q
  induction q with
  | nil => intro _; rfl
  | cons hd tl ih =>
    intro hall
    unfold insertByNonce
    rw [if_neg (hall hd (List.mem_cons_self _ _))]
    rw [ih (fun e' he' => hall e' (List.mem_cons_of_mem _ he'))]
    rfl

theorem promoteAccount_map_tx (st : AccountState) :
    (promoteAccount st).queue.map PoolEntry.tx = st.queue.map PoolEntry.tx := by
  unfold promoteAccount
  dsimp only
  rw [List.map_map]
  apply List.map_congr_left
  intro e _
  rw [Function.comp_apply]
  exact recomputeStatus_tx _ _

theorem promoteAccount_nextNonce (st : AccountState) :
    (promoteAccount st).nextNonce = st.nextNonce := rfl

theorem containsHash_iff {p : Pool} {h : Nat} :
    containsHash p h = true ↔
      ∃ as ∈ p.accounts, ∃ e ∈ as.2.queue, e.tx.hash = h := by
  simp [containsHash, List.any_eq_true]

theorem InvC8_congr {p : Pool} {cnt cnt' : Nat → Nat}
    (hcc : ∀ a, cnt a = cnt' a) (hinv : InvC8 p cnt) : InvC8 p cnt' := by
  obtain ⟨h1, h2, h3⟩ := hinv
  refine ⟨h1, ?_, ?_⟩
  · intro as hm
    rw [← hcc as.1]
    exact h2 as hm
  · intro a ha
    rw [← hcc a]
    exact h3 a ha

theorem InclC8_congr {p : Pool} {f f' : Nat → Nat}
    (hcc : ∀ a, f a = f' a) (hinv : InclC8 p f) : InclC8 p f' := by
  obtain ⟨h1, h2, h3⟩ := hinv
  refine ⟨h1, ?_, h3⟩
  intro as hm
  rw [← hcc as.1]
  exact h2 as hm

theorem markIncluded_append (p : Pool) (l₁ l₂ : List (Nat × BlockMeta)) :
    p.markIncluded (l₁ ++ l₂) = (p.markIncluded l₁).markIncluded l₂ := by
  unfold Pool.markIncluded
  rw [List.foldl_append]

theorem findByHash_found {l : List (Nat × AccountState)} {h a : Nat}
    {st : AccountState}
    (hnd : (l.map Prod.fst).Nodup) (hmem : (a, st) ∈ l)
    (hex : ∃ e ∈ st.queue, e.tx.hash = h)
    (huniq : ∀ x ∈ l, ∀ e' ∈ x.2.queue, e'.tx.hash = h → x.1 = a) :
    ∃ e', findByHash l h = some (a, e') ∧ e'.tx.hash = h := by
  induction l with
  | nil => simp at hmem
  | cons hd tl ih =>
    obtain ⟨b, stb⟩ := hd
    simp at hnd
    unfold findByHash
    cases hq : stb.queue.find? (fun e => e.tx.hash == h) with
    | some e'' =>
      have hm'' := List.mem_of_find?_eq_some hq
      have hp'' : e''.tx.hash = h := by simpa using List.find?_some hq
      have hba : b = a := huniq (b, stb) (List.mem_cons_self _ _) e'' hm'' hp''
      subst hba
      exact ⟨e'', rfl, hp''⟩
    | none =>
      by_cases hba : b = a
      · subst hba
        rcases List.mem_cons.mp hmem with heq | htl
        · injection heq with h1 h2
          subst h2
          obtain ⟨e, he, hhe⟩ := hex
          rw [List.find?_eq_none] at hq
          exact absurd (by simpa using hhe) (hq e he)
        · exact absurd htl (hnd.1 st)
      · have htl : (a, st) ∈ tl := by
          rcases List.mem_cons.mp hmem with heq | htl
          · injection heq with h1 _
            exact absurd h1.symm hba
          · exact htl
        exact ih hnd.2 htl
          (fun x hx => huniq x (List.mem_cons_of_mem _ hx))

theorem addC8_step {p : Pool} {cnt : Nat → Nat} (hinv : InvC8 p cnt) (a : Nat) :
    (p.add (txC8 a (cnt a))).1 = Except.ok (txC8 a (cnt a)).hash ∧
    InvC8 (p.add (txC8 a (cnt a))).2
      (fun b => if b = a then cnt a + 1 else cnt b) := by
  obtain ⟨hnd, hacc, hout⟩ := hinv
  have hch : containsHash p (txC8 a (cnt a)).hash = false := by
    by_contra hcon
    rw [Bool.not_eq_false, containsHash_iff] at hcon
    obtain ⟨as, hm, e, he, hh⟩ := hcon
    have h2 := hacc as hm
    have htxmem : e.tx ∈ as.2.queue.map PoolEntry.tx := List.mem_map_of_mem _ he
    rw [h2.2.2, List.mem_map] at htxmem
    obtain ⟨k, hk, htk⟩ := htxmem
    rw [List.mem_range] at hk
    have hhq : (txC8 as.1 k).hash = (txC8 a (cnt a)).hash := by rw [htk]; exact hh
    obtain ⟨hab, hkc⟩ := txC8_inj (Transaction.hash_inj hhq)
    rw [hab] at hk
    omega
  have hga : (getAccount p a).nextNonce = 0 ∧
      (getAccount p a).queue.map PoolEntry.tx = (List.range (cnt a)).map (txC8 a) := by
    unfold getAccount
    cases hl : lookupAccount p.accounts a with
    | some st =>
      have hm := mem_of_lookupAccount hl
      have h2 := hacc (a, st) hm
      exact ⟨h2.2.1, h2.2.2⟩
    | none =>
      have hnmem : a ∉ p.accounts.map Prod.fst := by
        intro hcon
        obtain ⟨st, hst⟩ := lookupAccount_some_of_mem_keys hcon
        rw [hl] at hst
        cases hst
      rw [hout a hnmem]
      simp
  have hfind : (getAccount p a).queue.find?
      (fun e => e.tx.nonce == (txC8 a (cnt a)).nonce) = none := by
    rw [List.find?_eq_none]
    intro e he
    have htxmem := List.mem_map_of_mem PoolEntry.tx he
    rw [hga.2, List.mem_map] at htxmem
    obtain ⟨k, hk, htk⟩ := htxmem
    rw [List.mem_range] at hk
    have hnk : e.tx.nonce = k := by rw [← htk]; rfl
    simp only [beq_iff_eq, hnk]
    show ¬ k = (txC8 a (cnt a)).nonce
    show ¬ k = cnt a
    omega
  have hnn : ¬ (txC8 a (cnt a)).nonce < (getAccount p a).nextNonce := by
    rw [hga.1]
    omega
  have hsender : (txC8 a (cnt a)).sender = a := rfl
  constructor
  · unfold Pool.add
    rw [hsender]
    simp [hch, hnn, hfind, show (txC8 a (cnt a)).sigOk = true from rfl]
  · unfold Pool.add
    rw [hsender]
    simp only [hch, Bool.false_eq_true, if_false,
      show (txC8 a (cnt a)).sigOk = true from rfl, not_true_eq_false, hnn,
      hfind]
    show InvC8
      ⟨updateAssoc p.accounts a (promoteAccount { (getAccount p a) with
        queue := insertByNonce ⟨txC8 a (cnt a), p.seqCounter, TxStatus.queued⟩
          (getAccount p a).queue }), p.seqCounter + 1, p.included⟩ _
    have hall : ∀ e' ∈ (getAccount p a).queue,
        ¬ (⟨txC8 a (cnt a), p.seqCounter, TxStatus.queued⟩ : PoolEntry).tx.nonce <
          e'.tx.nonce := by
      intro e' he'
      have htxmem := List.mem_map_of_mem PoolEntry.tx he'
      rw [hga.2, List.mem_map] at htxmem
      obtain ⟨k, hk, htk⟩ := htxmem
      rw [List.mem_range] at hk
      have hnk : e'.tx.nonce = k := by rw [← htk]; rfl
      show ¬ (txC8 a (cnt a)).nonce < e'.tx.nonce
      rw [hnk]
      show ¬ cnt a < k
      omega
    refine ⟨keys_nodup_updateAssoc _ _ _ hnd, ?_, ?_⟩
    · intro as hm
      rcases mem_updateAssoc_strong hnd hm with rfl | ⟨hold, hne⟩
      · refine ⟨by simp, ?_, ?_⟩
        · show (promoteAccount _).nextNonce = 0
          rw [promoteAccount_nextNonce]
          exact hga.1
        · show (promoteAccount _).queue.map PoolEntry.tx =
            (List.range (if a = a then cnt a + 1 else cnt a)).map (txC8 a)
          rw [if_pos rfl, promoteAccount_map_tx]
          dsimp only
          rw [insertByNonce_append hall, List.map_append, hga.2,
            List.range_succ, List.map_append]
          rfl
      · have h2 := hacc as hold
        refine ⟨?_, h2.2.1, ?_⟩
        · simp only [hne, if_false]
          exact h2.1
        · simp only [hne, if_false]
          exact h2.2.2
    · intro b hb
      have hbold : b ∉ p.accounts.map Prod.fst :=
        fun hcon => hb (keys_updateAssoc_super hcon)
      have hba : b ≠ a :=
        fun hcon => hb (hcon ▸ mem_keys_updateAssoc_self _ _ _)
      simp only [hba, if_false]
      exact hout b hbold

theorem runAddsC8 :
    ∀ (sched : List (Nat × Nat)) (p : Pool) (cnt : Nat → Nat),
    InvC8 p cnt →
    (∀ a, ∃ m, ((sched.filter (fun an => an.1 == a)).map Prod.snd) =
      List.range' (cnt a) m) →
    (∀ r ∈ (runAdds p sched).1, ∃ h, r = Except.ok h) ∧
    InvC8 (runAdds p sched).2
      (fun a => cnt a + (sched.filter (fun an => an.1 == a)).length) := by
  intro sched
  induction sched with
  | nil =>
    intro p cnt hinv _
    refine ⟨by intro r hr; simp [runAdds] at hr, ?_⟩
    exact InvC8_congr (fun a => by simp) hinv
  | cons an rest ih =>
    obtain ⟨a, n⟩ := an
    intro p cnt hinv hsched
    have hfilter_cons_a : (((a, n) :: rest).filter (fun an => an.1 == a)) =
        (a, n) :: rest.filter (fun an => an.1 == a) := by
      rw [List.filter_cons]
      simp
    obtain ⟨m, hm⟩ := hsched a
    rw [hfilter_cons_a, List.map_cons] at hm
    cases m with
    | zero => simp at hm
    | succ m' =>
      rw [List.range'_succ (cnt a) m' 1] at hm
      injection hm with hn htail
      subst hn
      obtain ⟨hok, hinv₁⟩ := addC8_step hinv a
      have hrw : runAdds p ((a, cnt a) :: rest) =
          ((p.add (txC8 a (cnt a))).1 ::
              (runAdds (p.add (txC8 a (cnt a))).2 rest).1,
            (runAdds (p.add (txC8 a (cnt a))).2 rest).2) := rfl
      have hsched₁ : ∀ b, ∃ mb,
          ((rest.filter (fun an => an.1 == b)).map Prod.snd) =
            List.range' ((fun c => if c = a then cnt a + 1 else cnt c) b) mb := by
        intro b
        by_cases hba : b = a
        · subst hba
          refine ⟨m', ?_⟩
          simp only [if_pos rfl]
          exact htail
        · obtain ⟨mb, hmb⟩ := hsched b
          have hskip : (((a, cnt a) :: rest).filter (fun an => an.1 == b)) =
              rest.filter (fun an => an.1 == b) := by
            rw [List.filter_cons]
            have : ((a, cnt a).1 == b) = false := by simp; omega
            simp [this]
          rw [hskip] at hmb
          refine ⟨mb, ?_⟩
          simp only [hba, if_false]
          exact hmb
      obtain ⟨hokrest, hinvrest⟩ := ih _ _ hinv₁ hsched₁
      constructor
      · intro r hr
        rw [hrw] at hr
        rcases List.mem_cons.mp hr with rfl | hr'
        · exact ⟨_, hok⟩
        · exact hokrest r hr'
      · rw [hrw]
        refine InvC8_congr ?_ hinvrest
        intro b
        by_cases hba : b = a
        · subst hba
          rw [hfilter_cons_a, List.length_cons]
          simp
          omega
        · have hskip : (((a, cnt a) :: rest).filter (fun an => an.1 == b)) =
              rest.filter (fun an => an.1 == b) := by
            rw [List.filter_cons]
            have : ((a, cnt a).1 == b) = false := by simp; omega
            simp [this]
          simp only [hba, if_false]
          rw [hskip]

theorem map_tx_filter_hash (h : Nat) : ∀ (q : List PoolEntry),
    (q.filter (fun e => ¬ e.tx.hash = h)).map PoolEntry.tx =
      (q.map PoolEntry.tx).filter (fun t => ¬ t.hash = h) := by
  intro q
  induction q with
  | nil => rfl
  | cons hd tl ih =>
    simp only [List.map_cons, List.filter_cons]
    cases hb : (decide (¬ hd.tx.hash = h)) with
    | true =>
      rw [if_pos rfl, if_pos rfl, List.map_cons, ih]
    | false =>
      rw [if_neg (by intro hcon; cases hcon), if_neg (by intro hcon; cases hcon)]
      exact ih

theorem inclC8_step {p : Pool} {f : Nat → Nat} {a : Nat} (hinv : InclC8 p f)
    (ha : a < 10) (hfa : f a < 50) (m : BlockMeta) :
    InclC8 (markIncludedOne p (txC8 a (f a)).hash m)
      (fun b => if b = a then f a + 1 else f b) := by
  obtain ⟨hnd, hacc, hmem10⟩ := hinv
  have hamem := hmem10 a ha
  rw [List.mem_map] at hamem
  obtain ⟨⟨a', st⟩, hst_mem, ha'⟩ := hamem
  dsimp only at ha'
  subst ha'
  have hst := hacc (a', st) hst_mem
  have hq : st.queue.map PoolEntry.tx =
      (List.range' (f a') (50 - f a')).map (txC8 a') := hst.2.2.2
  have hnn : st.nextNonce = f a' := hst.2.2.1
  have hex : ∃ e ∈ st.queue, e.tx.hash = (txC8 a' (f a')).hash := by
    have hmm : txC8 a' (f a') ∈ st.queue.map PoolEntry.tx := by
      rw [hq, List.mem_map]
      refine ⟨f a', ?_, rfl⟩
      rw [List.mem_range'_1]
      omega
    rw [List.mem_map] at hmm
    obtain ⟨e, he, hte⟩ := hmm
    exact ⟨e, he, by rw [hte]⟩
  have huniq : ∀ x ∈ p.accounts, ∀ e' ∈ x.2.queue,
      e'.tx.hash = (txC8 a' (f a')).hash → x.1 = a' := by
    intro x hx e' he' hh
    have h2 := hacc x hx
    have hmm : e'.tx ∈ x.2.queue.map PoolEntry.tx := List.mem_map_of_mem _ he'
    rw [h2.2.2.2, List.mem_map] at hmm
    obtain ⟨k, hk, htk⟩ := hmm
    have hhq : (txC8 x.1 k).hash = (txC8 a' (f a')).hash := by rw [htk]; exact hh
    exact (txC8_inj (Transaction.hash_inj hhq)).1
  obtain ⟨e', hfind, hhash⟩ := findByHash_found hnd hst_mem hex huniq
  have he'tx : e'.tx = txC8 a' (f a') := Transaction.hash_inj hhash
  have hget : getAccount p a' = st := getAccount_eq_of_mem hnd hst_mem
  unfold markIncludedOne
  rw [hfind]
  refine ⟨keys_nodup_updateAssoc _ _ _ hnd, ?_, ?_⟩
  · intro as hm
    dsimp only at hm
    rcases mem_updateAssoc_strong hnd hm with rfl | ⟨hold, hne⟩
    · have hif : (if a' = a' then f a' + 1 else f a') = f a' + 1 := if_pos rfl
      refine ⟨ha, by show (if a' = a' then f a' + 1 else f a') ≤ 50; rw [hif]; omega,
        ?_, ?_⟩
      · show (promoteAccount _).nextNonce = _
        rw [promoteAccount_nextNonce]
        dsimp only
        rw [hget, hnn, he'tx]
        have hnc : (txC8 a' (f a')).nonce = f a' := rfl
        rw [hnc]
        show max (f a') (f a' + 1) = (if a' = a' then f a' + 1 else f a')
        rw [hif]
        omega
      · show (promoteAccount _).queue.map PoolEntry.tx = _
        rw [promoteAccount_map_tx]
        dsimp only
        rw [hget, map_tx_filter_hash, hq]
        have h50 : 50 - f a' = (50 - (f a' + 1)) + 1 := by omega
        rw [h50, List.range'_succ (f a') _ 1, List.map_cons, List.filter_cons]
        have hhead : (decide (¬ (txC8 a' (f a')).hash = (txC8 a' (f a')).hash)) =
            false := by simp
        rw [hhead, if_neg (by intro hcon; cases hcon)]
        have htail : ((List.range' (f a' + 1) (50 - (f a' + 1))).map
            (txC8 a')).filter
              (fun t => ¬ t.hash = (txC8 a' (f a')).hash) =
            (List.range' (f a' + 1) (50 - (f a' + 1))).map (txC8 a') := by
          rw [List.filter_eq_self]
          intro t ht
          rw [List.mem_map] at ht
          obtain ⟨k, hk, htk⟩ := ht
          rw [List.mem_range'_1] at hk
          subst htk
          simp only [decide_eq_true_eq]
          intro hcon
          obtain ⟨_, hkk⟩ := txC8_inj (Transaction.hash_inj hcon)
          omega
        rw [htail]
        show _ = (List.range' (if a' = a' then f a' + 1 else f a')
          (50 - (if a' = a' then f a' + 1 else f a'))).map (txC8 a')
        rw [hif]
    · have h2 := hacc as hold
      have hif2 : (fun b => if b = a' then f a' + 1 else f b) as.1 = f as.1 := by
        dsimp only
        rw [if_neg hne]
      refine ⟨h2.1, ?_, ?_, ?_⟩ <;> rw [hif2]
      · exact h2.2.1
      · exact h2.2.2.1
      · exact h2.2.2.2
  · intro b hb
    dsimp only
    exact keys_updateAssoc_super (hmem10 b hb)

theorem inclC8_account : ∀ (k : Nat) {p : Pool} {f : Nat → Nat} {a : Nat},
    InclC8 p f → a < 10 → 50 - f a = k → f a ≤ 50 →
    InclC8 (p.markIncluded ((List.range' (f a) k).map
        (fun n => ((txC8 a n).hash, (⟨1, 1, 0⟩ : BlockMeta)))))
      (fun b => if b = a then 50 else f b) := by
  intro k
  induction k with
  | zero =>
    intro p f a hinv ha hk hf50
    have hfa : f a = 50 := by omega
    refine InclC8_congr ?_ hinv
    intro b
    by_cases hba : b = a
    · subst hba
      rw [if_pos rfl, hfa]
    · rw [if_neg hba]
  | succ k' ih =>
    intro p f a hinv ha hk hf50
    have hfa : f a < 50 := by omega
    rw [List.range'_succ (f a) k' 1, List.map_cons, markIncluded_cons]
    have h1 := inclC8_step hinv ha hfa ⟨1, 1, 0⟩
    have hif : (if a = a then f a + 1 else f a) = f a + 1 := if_pos rfl
    have h2 := ih h1 ha (by rw [hif]; omega) (by rw [hif]; omega)
    rw [hif] at h2
    refine InclC8_congr ?_ h2
    intro b
    by_cases hba : b = a <;> simp [hba]

theorem inclC8_all : ∀ (accts : List Nat) {p : Pool} {f : Nat → Nat},
    accts.Nodup → InclC8 p f →
    (∀ a ∈ accts, a < 10 ∧ f a = 0) →
    InclC8 (p.markIncluded (accts.flatMap (fun a =>
        (List.range 50).map (fun n => ((txC8 a n).hash, (⟨1, 1, 0⟩ : BlockMeta))))))
      (fun b => if b ∈ accts then 50 else f b) := by
  intro accts
  induction accts with
  | nil =>
    intro p f _ hinv _
    refine InclC8_congr ?_ hinv
    intro b
    simp
  | cons a rest ih =>
    intro p f hnd hinv hall
    rw [List.flatMap_cons, markIncluded_append]
    have ha := hall a (List.mem_cons_self _ _)
    have hblock : (List.range 50).map
        (fun n => ((txC8 a n).hash, (⟨1, 1, 0⟩ : BlockMeta))) =
        (List.range' (f a) (50 - f a)).map
          (fun n => ((txC8 a n).hash, (⟨1, 1, 0⟩ : BlockMeta))) := by
      rw [ha.2, List.range_eq_range']
    rw [hblock]
    have h1 := inclC8_account (50 - f a) hinv ha.1 rfl (by omega)
    have hall' : ∀ b ∈ rest, b < 10 ∧
        (fun c => if c = a then 50 else f c) b = 0 := by
      intro b hb
      have hb2 := hall b (List.mem_cons_of_mem _ hb)
      refine ⟨hb2.1, ?_⟩
      have hba : b ≠ a := by
        intro hcon
        subst hcon
        exact (List.nodup_cons.mp hnd).1 hb
      dsimp only
      rw [if_neg hba]
      exact hb2.2
    have h2 := ih (List.Nodup.of_cons hnd) h1 hall'
    refine InclC8_congr ?_ h2
    intro b
    by_cases hbr : b ∈ rest
    · simp [hbr]
    · by_cases hba : b = a
      · subst hba
        simp [hbr]
      · simp [hbr, hba]

/-- C8: stress addition: for every interleaving of ten accounts each
submitting their transactions at nonces 0 through 49 in order, all five
hundred Adds are accepted (each returns a hash, no error), and after every
transaction has been included each account's confirmed nonce is exactly
fifty. -/
theorem stress_addition (sched : List (Nat × Nat))
    (hs1 : ∀ an ∈ sched, an.1 < 10)
    (hs2 : ∀ a, a < 10 →
      ((sched.filter (fun an => an.1 == a)).map Prod.snd) = List.range 50) :
    (∀ r ∈ (runAdds emptyPool sched).1, ∃ h, r = Except.ok h) ∧
    (∀ a, a < 10 →
      (getAccount ((runAdds emptyPool sched).2.markIncluded includeAllC8)
        a).nextNonce = 50) := by
  have hinv0 : InvC8 emptyPool (fun _ => 0) := by
    refine ⟨by simp [emptyPool], ?_, fun a _ => rfl⟩
    intro as hm
    simp [emptyPool] at hm
  have hsched : ∀ a, ∃ m, ((sched.filter (fun an => an.1 == a)).map Prod.snd) =
      List.range' 0 m := by
    intro a
    by_cases ha : a < 10
    · exact ⟨50, by rw [hs2 a ha, List.range_eq_range']⟩
    · refine ⟨0, ?_⟩
      have hnil : sched.filter (fun an => an.1 == a) = [] := by
        rw [List.filter_eq_nil_iff]
        intro an han
        have := hs1 an han
        simp
        omega
      rw [hnil]
      rfl
  obtain ⟨hok, hinv⟩ := runAddsC8 sched emptyPool (fun _ => 0) hinv0 hsched
  refine ⟨hok, ?_⟩
  have hlen : ∀ a, a < 10 → (sched.filter (fun an => an.1 == a)).length = 50 := by
    intro a ha
    have hcl := congrArg List.length (hs2 a ha)
    rw [List.length_map, List.length_range] at hcl
    exact hcl
  have hincl : InclC8 (runAdds emptyPool sched).2 (fun _ => 0) := by
    obtain ⟨hnd, hacc, hout⟩ := hinv
    refine ⟨hnd, ?_, ?_⟩
    · intro as hm
      have h2 := hacc as hm
      have h10 : as.1 < 10 := by
        by_contra hcon
        have hfil : sched.filter (fun an => an.1 == as.1) = [] := by
          rw [List.filter_eq_nil_iff]
          intro an han
          have := hs1 an han
          simp
          omega
        apply h2.1
        dsimp only
        rw [hfil]
        rfl
      refine ⟨h10, by exact Nat.zero_le 50, h2.2.1, ?_⟩
      have hc : (fun a => 0 + (sched.filter (fun an => an.1 == a)).length) as.1 =
          50 := by
        dsimp only
        rw [hlen as.1 h10]
      have h3 := h2.2.2
      rw [hc] at h3
      show _ = (List.range' 0 (50 - 0)).map (txC8 as.1)
      rw [← List.range_eq_range']
      exact h3
    · intro a ha
      by_contra hcon
      have hz := hout a hcon
      dsimp only at hz
      rw [hlen a ha] at hz
      omega
  have hall10 : ∀ a ∈ List.range 10, a < 10 ∧ (fun _ => (0 : Nat)) a = 0 := by
    intro a ha
    rw [List.mem_range] at ha
    exact ⟨ha, rfl⟩
  have hfinal := inclC8_all (List.range 10) (List.nodup_range 10) hincl hall10
  intro a ha
  obtain ⟨hndF, haccF, hmemF⟩ := hfinal
  have hamem := hmemF a ha
  rw [List.mem_map] at hamem
  obtain ⟨⟨a', st⟩, hst_mem, ha'⟩ := hamem
  dsimp only at ha'
  subst ha'
  have hget : getAccount ((runAdds emptyPool sched).2.markIncluded includeAllC8)
      a' = st := getAccount_eq_of_mem hndF hst_mem
  rw [hget]
  have h2 := haccF (a', st) hst_mem
  rw [h2.2.2.1]
  dsimp only
  rw [if_pos (by rw [List.mem_range]; exact ha)]

set_option maxRecDepth 100000 in
/-- Witness for C8 at a concrete input: the sequential schedule, account by
account, nonces ascending. -/
theorem stress_addition_witness :
    ((∀ an ∈ schedC8, an.1 < 10) ∧
      (∀ a, a < 10 → ((schedC8.filter (fun an => an.1 == a)).map Prod.snd) =
        List.range 50)) ∧
    (∀ a, a < 10 →
      (getAccount ((runAdds emptyPool schedC8).2.markIncluded includeAllC8)
        a).nextNonce = 50) :=
  ⟨⟨by decide, by decide⟩, (stress_addition schedC8 (by decide) (by decide)).2⟩

end TxPool

namespace Bridge

/-- C10: NewBridge returns a bridge exactly when statesync.NewStateSync
succeeds and otherwise forwards that same error unchanged; Start and Close
return exactly the error produced by stateSync.Start and stateSync.Close
(nil on success) and modify no field of the bridge. -/
theorem bridge_error_propagation :
    (∀ (l : Logger) (e : Nat), NewBridge l (Except.error e) = Except.error e) ∧
    (∀ (l : Logger) (ss : StateSync),
      NewBridge l (Except.ok ss) = Except.ok ⟨l.named "bridge", ss, ⟨[], 0⟩⟩) ∧
    (∀ b : BridgeS, b.start.1 = b.stateSync.startResult ∧ b.start.2 = b) ∧
    (∀ b : BridgeS, b.close.1 = b.stateSync.closeResult ∧ b.close.2 = b) := by
  refine ⟨fun l e => rfl, fun l ss => rfl, fun b => ?_, fun b => ?_⟩
  · cases h : b.stateSync.startResult <;> simp [BridgeS.start, h]
  · cases h : b.stateSync.closeResult <;> simp [BridgeS.close, h]

end Bridge
